import Mathlib

/-!
Verification of the SYSxFOX trade engine (src/trade_engine.py, src/main.py,
src/signal_parser.py) against its natural-language specification.

Prices and quantities are embedded as rationals (`ℚ`); the Python code performs
its arithmetic in IEEE doubles, but every claim under scrutiny is about the
algorithmic (exact-arithmetic) content of the computations, which the rational
embedding captures.  Python `dict`-shaped trade records are embedded as a fixed
`Trade` structure whose fields default exactly like the `tr.get(key)` accesses
in the source (absent boolean keys read as `False`, absent lists as `[]`).
Exchange I/O is made explicit: each engine entry point takes an environment
record carrying the values the exchange would return, and fallible calls are
`Except`-valued.  String statuses "pending"/"open"/"closed"/"expired" are the
four-constructor inductive `Status`.
-/

namespace SysFox

/-- Python truthiness of `x or d` for an optional float `x`:
`None` and `0.0` both fall through to the default. -/
def pyOr (o : Option ℚ) (d : ℚ) : ℚ :=
  match o with
  | none => d
  | some x => if x = 0 then d else x

/-- `TradeEngine._floor_to_step`: `math.floor(x / step) * step`, with
non-positive steps passed through unchanged. -/
def floorToStep (x step : ℚ) : ℚ :=
  if step ≤ 0 then x else ⌊x / step⌋ * step

/-- Round-half-to-even to an integer, the tie rule of Python's builtin
`round` and of `%.10f` formatting. -/
def roundHalfEven (x : ℚ) : ℤ :=
  let f := ⌊x⌋
  let r := x - f
  if r < 1/2 then f
  else if 1/2 < r then f + 1
  else if Even f then f else f + 1

/-- Rounding to 10 decimal places, as done by `round(_, 10)` and by the
`float(f"{qty:.10f}")` normalisation in `_round_qty`. -/
def roundTo10 (x : ℚ) : ℚ := (roundHalfEven (x * 10 ^ 10) : ℚ) / 10 ^ 10

/-- `TradeEngine._round_price`: `round(round(price / tick_size) * tick_size, 10)`,
with non-positive tick sizes passed through. -/
def roundPrice (price tick : ℚ) : ℚ :=
  if tick ≤ 0 then price else roundTo10 ((roundHalfEven (price / tick) : ℚ) * tick)

/-- `TradeEngine._round_qty`: floor to the quantity step, raise to the minimum
order quantity if below it, then normalise to 10 decimal places. -/
def roundQty (qty step minQty : ℚ) : ℚ :=
  let q1 := floorToStep qty step
  let q2 := if q1 < minQty then minQty else q1
  roundTo10 q2

/-- `TradeEngine.calc_base_qty`: margin = equity · risk%, notional = margin ·
leverage, qty = notional / price, then `_round_qty`. -/
def calcBaseQty (equity riskPct leverage entryPrice step minQty : ℚ) : ℚ :=
  let margin := equity * (riskPct / 100)
  let notional := margin * leverage
  let qty := notional / entryPrice
  roundQty qty step minQty

/-- Order side, the `"Buy"`/`"Sell"` strings of the source. -/
inductive Side
  | buy
  | sell
deriving DecidableEq, Repr

/-- `_opposite_side`. -/
def oppositeSide : Side → Side
  | .buy => .sell
  | .sell => .buy

/-- Trade status, the `"pending"`/`"open"`/`"closed"`/`"expired"` strings. -/
inductive Status
  | pending
  | opened
  | closed
  | expired
deriving DecidableEq, Repr

/-- Configuration constants read from `config` by `trade_engine.py`.  The
concrete values (splits 15/25/25/25, SL clamp band 1.5%–5%) are stated in the
module docstring of `trade_engine.py`; the theorems are parametric in them. -/
structure Config where
  slPct : ℚ
  slMinPct : ℚ
  slMaxPct : ℚ
  slBufferPct : ℚ
  tpSplits : List ℚ
  moveSlToBeOnTp1 : Bool
  trailActivateOnTp : Bool
  trailAfterTpIndex : Nat
  trailDistancePct : ℚ
  entryExpirationMin : ℚ
deriving DecidableEq, Repr

/-- One kline; only the `low`/`high` fields are read by `_find_swing_point`. -/
structure Candle where
  low : ℚ
  high : ℚ
deriving DecidableEq, Repr

/-- Python `min` over a nonempty list (`none` on the empty list, where Python
would raise). -/
def listMin : List ℚ → Option ℚ
  | [] => none
  | x :: xs => some (xs.foldl min x)

/-- Python `max` over a nonempty list. -/
def listMax : List ℚ → Option ℚ
  | [] => none
  | x :: xs => some (xs.foldl max x)

/-- `TradeEngine._find_swing_point`.  `klines` is the result of the candle
fetch; a raised exception is the `.error` case, caught by the trailing
`except` which returns `None`. -/
def findSwingPoint (cfg : Config) (side : Side) (entryPrice : ℚ)
    (klines : Except Unit (List Candle)) : Option ℚ :=
  match klines with
  | .error _ => none
  | .ok candles =>
    if candles.length < 5 then none
    else
      match side with
      | .buy =>
        match listMin (candles.map (·.low)) with
        | none => none
        | some swingLow =>
          let slPrice := swingLow * (1 - cfg.slBufferPct / 100)
          let distancePct := (entryPrice - slPrice) / entryPrice * 100
          if distancePct < cfg.slMinPct then
            some (entryPrice * (1 - cfg.slMinPct / 100))
          else if cfg.slMaxPct < distancePct then
            some (entryPrice * (1 - cfg.slMaxPct / 100))
          else
            some slPrice
      | .sell =>
        match listMax (candles.map (·.high)) with
        | none => none
        | some swingHigh =>
          let slPrice := swingHigh * (1 + cfg.slBufferPct / 100)
          let distancePct := (slPrice - entryPrice) / entryPrice * 100
          if distancePct < cfg.slMinPct then
            some (entryPrice * (1 + cfg.slMinPct / 100))
          else if cfg.slMaxPct < distancePct then
            some (entryPrice * (1 + cfg.slMaxPct / 100))
          else
            some slPrice

/-- The raw structure-derived stop before clamping: swing low minus buffer for
a long, swing high plus buffer for a short. -/
def structStopRaw (cfg : Config) (side : Side) (candles : List Candle) : Option ℚ :=
  match side with
  | .buy => (listMin (candles.map (·.low))).map (fun lo => lo * (1 - cfg.slBufferPct / 100))
  | .sell => (listMax (candles.map (·.high))).map (fun hi => hi * (1 + cfg.slBufferPct / 100))

/-- Signed stop distance from entry, in percent, in the direction the stop
protects (below entry for a long, above entry for a short). -/
def distFromEntry (side : Side) (entryPrice sl : ℚ) : ℚ :=
  match side with
  | .buy => (entryPrice - sl) / entryPrice * 100
  | .sell => (sl - entryPrice) / entryPrice * 100

lemma distFromEntry_buy_pct (e p : ℚ) (he : e ≠ 0) :
    distFromEntry .buy e (e * (1 - p / 100)) = p := by
  simp only [distFromEntry]
  field_simp
  ring

lemma distFromEntry_sell_pct (e p : ℚ) (he : e ≠ 0) :
    distFromEntry .sell e (e * (1 + p / 100)) = p := by
  simp only [distFromEntry]
  field_simp
  ring

lemma clamp_lo (m M d : ℚ) (hband : m ≤ M) (h : d < m) :
    max m (min M d) = m := by
  rw [min_eq_right (le_of_lt (lt_of_lt_of_le h hband)), max_eq_left (le_of_lt h)]

lemma clamp_hi (m M d : ℚ) (hband : m ≤ M) (h : M < d) :
    max m (min M d) = M := by
  rw [min_eq_left (le_of_lt h), max_eq_right hband]

lemma clamp_mid (m M d : ℚ) (h1 : ¬ d < m) (h2 : ¬ M < d) :
    max m (min M d) = d := by
  rw [min_eq_right (not_lt.mp h2), max_eq_right (not_lt.mp h1)]

/-- C4: the structure-based stop calculator returns no result when the fetch
raises or fewer than 5 candles are available; otherwise the returned stop lies
at distance exactly `max SL_MIN_PCT (min SL_MAX_PCT d)` percent from entry,
where `d` is the raw structure-derived distance (swing low minus buffer for a
long, swing high plus buffer for a short): exactly the clamped bound when `d`
is out of band, the raw structure stop when in band. -/
theorem find_swing_point_clamped (cfg : Config) (side : Side) (entryPrice : ℚ)
    (candles : List Candle)
    (hband : cfg.slMinPct ≤ cfg.slMaxPct) (hE : 0 < entryPrice) :
    (∀ e, findSwingPoint cfg side entryPrice (.error e) = none) ∧
    (candles.length < 5 → findSwingPoint cfg side entryPrice (.ok candles) = none) ∧
    (5 ≤ candles.length →
      ∃ raw sl, structStopRaw cfg side candles = some raw ∧
        findSwingPoint cfg side entryPrice (.ok candles) = some sl ∧
        distFromEntry side entryPrice sl
          = max cfg.slMinPct (min cfg.slMaxPct (distFromEntry side entryPrice raw))) := by
  have hE' : entryPrice ≠ 0 := ne_of_gt hE
  refine ⟨fun e => rfl, ?_, ?_⟩
  · intro hlt
    cases side <;> simp [findSwingPoint, hlt]
  · intro hge
    have hne : candles ≠ [] := by
      intro h
      rw [h] at hge
      simp at hge
    have hlen : ¬ candles.length < 5 := by omega
    obtain ⟨c, cs, rfl⟩ := List.exists_cons_of_ne_nil hne
    cases side with
    | buy =>
      refine ⟨((cs.map (·.low)).foldl min c.low) * (1 - cfg.slBufferPct / 100), ?_⟩
      have hfsp : findSwingPoint cfg .buy entryPrice (.ok (c :: cs)) =
          (let raw := ((cs.map (·.low)).foldl min c.low) * (1 - cfg.slBufferPct / 100)
           let d := (entryPrice - raw) / entryPrice * 100
           if d < cfg.slMinPct then some (entryPrice * (1 - cfg.slMinPct / 100))
           else if cfg.slMaxPct < d then some (entryPrice * (1 - cfg.slMaxPct / 100))
           else some raw) := by
        simp only [findSwingPoint, hlen, if_false, List.map_cons, listMin]
      have hraw : structStopRaw cfg .buy (c :: cs) =
          some (((cs.map (·.low)).foldl min c.low) * (1 - cfg.slBufferPct / 100)) := rfl
      set raw := ((cs.map (·.low)).foldl min c.low) * (1 - cfg.slBufferPct / 100) with hrawdef
      set d := (entryPrice - raw) / entryPrice * 100 with hddef
      have hdist_raw : distFromEntry .buy entryPrice raw = d := rfl
      by_cases h1 : d < cfg.slMinPct
      · refine ⟨entryPrice * (1 - cfg.slMinPct / 100), hraw, ?_, ?_⟩
        · rw [hfsp]
          simp only [← hddef, if_pos h1]
        · rw [distFromEntry_buy_pct _ _ hE', hdist_raw, clamp_lo _ _ _ hband h1]
      · by_cases h2 : cfg.slMaxPct < d
        · refine ⟨entryPrice * (1 - cfg.slMaxPct / 100), hraw, ?_, ?_⟩
          · rw [hfsp]
            simp only [← hddef, if_neg h1, if_pos h2]
          · rw [distFromEntry_buy_pct _ _ hE', hdist_raw, clamp_hi _ _ _ hband h2]
        · refine ⟨raw, hraw, ?_, ?_⟩
          · rw [hfsp]
            simp only [← hddef, if_neg h1, if_neg h2]
          · rw [hdist_raw, clamp_mid _ _ _ h1 h2]
    | sell =>
      refine ⟨((cs.map (·.high)).foldl max c.high) * (1 + cfg.slBufferPct / 100), ?_⟩
      have hfsp : findSwingPoint cfg .sell entryPrice (.ok (c :: cs)) =
          (let raw := ((cs.map (·.high)).foldl max c.high) * (1 + cfg.slBufferPct / 100)
           let d := (raw - entryPrice) / entryPrice * 100
           if d < cfg.slMinPct then some (entryPrice * (1 + cfg.slMinPct / 100))
           else if cfg.slMaxPct < d then some (entryPrice * (1 + cfg.slMaxPct / 100))
           else some raw) := by
        simp only [findSwingPoint, hlen, if_false, List.map_cons, listMax]
      have hraw : structStopRaw cfg .sell (c :: cs) =
          some (((cs.map (·.high)).foldl max c.high) * (1 + cfg.slBufferPct / 100)) := rfl
      set raw := ((cs.map (·.high)).foldl max c.high) * (1 + cfg.slBufferPct / 100) with hrawdef
      set d := (raw - entryPrice) / entryPrice * 100 with hddef
      have hdist_raw : distFromEntry .sell entryPrice raw = d := rfl
      by_cases h1 : d < cfg.slMinPct
      · refine ⟨entryPrice * (1 + cfg.slMinPct / 100), hraw, ?_, ?_⟩
        · rw [hfsp]
          simp only [← hddef, if_pos h1]
        · rw [distFromEntry_sell_pct _ _ hE', hdist_raw, clamp_lo _ _ _ hband h1]
      · by_cases h2 : cfg.slMaxPct < d
        · refine ⟨entryPrice * (1 + cfg.slMaxPct / 100), hraw, ?_, ?_⟩
          · rw [hfsp]
            simp only [← hddef, if_neg h1, if_pos h2]
          · rw [distFromEntry_sell_pct _ _ hE', hdist_raw, clamp_hi _ _ _ hband h2]
        · refine ⟨raw, hraw, ?_, ?_⟩
          · rw [hfsp]
            simp only [← hddef, if_neg h1, if_neg h2]
          · rw [hdist_raw, clamp_mid _ _ _ h1 h2]

/-- Witness for C4 at a concrete long input: SL_MIN 1.5, SL_MAX 5, buffer 0.2,
entry 100, five candles whose minimum low is 98 → raw stop 97.804, raw
distance 2.196% (in band), so the structure stop is returned unchanged. -/
theorem find_swing_point_clamped_witness :
    ((3 : ℚ) / 2 ≤ 5 ∧ (0 : ℚ) < 100) ∧
    (findSwingPoint
        ⟨5, 3/2, 5, 1/5, [15, 25, 25, 25], true, true, 4, 1, 45⟩
        .buy 100
        (.ok [⟨98, 99⟩, ⟨99, 100⟩, ⟨100, 101⟩, ⟨99, 102⟩, ⟨98, 103⟩])
      = some (97804 / 1000)) := by
  refine ⟨⟨by norm_num, by norm_num⟩, ?_⟩
  have h := (find_swing_point_clamped
      ⟨5, 3/2, 5, 1/5, [15, 25, 25, 25], true, true, 4, 1, 45⟩
      .buy 100
      [⟨98, 99⟩, ⟨99, 100⟩, ⟨100, 101⟩, ⟨99, 102⟩, ⟨98, 103⟩]
      (by norm_num) (by norm_num)).2.2 (by norm_num)
  obtain ⟨raw, sl, hraw, hfsp, _⟩ := h
  rw [hfsp]
  have : sl = 97804 / 1000 := by
    have hval : findSwingPoint
        ⟨5, 3/2, 5, 1/5, [15, 25, 25, 25], true, true, 4, 1, 45⟩
        .buy 100
        (.ok [⟨98, 99⟩, ⟨99, 100⟩, ⟨100, 101⟩, ⟨99, 102⟩, ⟨98, 103⟩])
        = some (97804 / 1000) := by
      norm_num [findSwingPoint, listMin]
    rw [hval] at hfsp
    exact (Option.some_inj.mp hfsp).symm
  rw [this]

/-- One take-profit order request as built by `place_post_entry_orders`
(`idx` is the zero-based split index; the orderLinkId tag is `TP(idx+1)`). -/
structure TpOrder where
  idx : Nat
  qty : ℚ
  price : ℚ
deriving DecidableEq, Repr

/-- The per-TP loop of `place_post_entry_orders` (normal flow): items are
`(idx, split pct, rounded TP price)`; `acc` is `accumulated_pct`.  A split
whose rounded quantity is below the minimum is skipped and its percentage
accumulated; on the next placed split the accumulated percentage is converted
to quantity and folded in. -/
def tpLoop (size step minQty : ℚ) : List (Nat × ℚ × ℚ) → ℚ → List TpOrder
  | [], _ => []
  | (idx, pct, tp) :: rest, acc =>
    if pct ≤ 0 then tpLoop size step minQty rest acc
    else
      let qty := floorToStep (size * (pct / 100)) step
      if qty < minQty then tpLoop size step minQty rest (acc + pct)
      else
        let qty2 := if 0 < acc then
            floorToStep (qty + floorToStep (size * (acc / 100)) step) step
          else qty
        ⟨idx, qty2, tp⟩ :: tpLoop size step minQty rest 0

/-- The TP-order construction of `place_post_entry_orders`: degrade to a
single 90%-sized TP at the last target when the combined split allocation
rounds below the minimum order quantity (stop-loss-only if even that is too
small), otherwise run the per-split loop. -/
def buildTpOrders (cfg : Config) (size step minQty tick : ℚ)
    (tpPrices : List ℚ) : List TpOrder :=
  let tpToPlace := min tpPrices.length cfg.tpSplits.length
  let splitsSum := (cfg.tpSplits.take tpToPlace).sum
  let remainingQty := floorToStep (size * (splitsSum / 100)) step
  if remainingQty < minQty then
    match tpPrices.getLast? with
    | none => []
    | some lastP =>
      let lastTp := roundPrice lastP tick
      let tpQty := floorToStep (size * (9 / 10)) step
      if minQty ≤ tpQty then [⟨0, tpQty, lastTp⟩] else []
  else
    tpLoop size step minQty
      ((List.range tpToPlace).map
        (fun i => (i, cfg.tpSplits.getD i 0, roundPrice (tpPrices.getD i 0) tick))) 0

lemma floorToStep_le {step : ℚ} (hstep : 0 < step) (x : ℚ) :
    floorToStep x step ≤ x := by
  unfold floorToStep
  rw [if_neg (not_le.mpr hstep)]
  calc (⌊x / step⌋ : ℚ) * step ≤ (x / step) * step :=
        mul_le_mul_of_nonneg_right (Int.floor_le _) (le_of_lt hstep)
    _ = x := div_mul_cancel₀ x (ne_of_gt hstep)

lemma floorToStep_nonneg {step : ℚ} (hstep : 0 < step) {x : ℚ} (hx : 0 ≤ x) :
    0 ≤ floorToStep x step := by
  unfold floorToStep
  rw [if_neg (not_le.mpr hstep)]
  have h1 : (0 : ℚ) ≤ ⌊x / step⌋ := by
    have := Int.floor_nonneg.mpr (div_nonneg hx (le_of_lt hstep))
    exact_mod_cast this
  exact mul_nonneg h1 (le_of_lt hstep)

lemma floorToStep_multiple {step : ℚ} (hstep : 0 < step) (x : ℚ) :
    ∃ k : ℤ, floorToStep x step = (k : ℚ) * step :=
  ⟨⌊x / step⌋, by unfold floorToStep; rw [if_neg (not_le.mpr hstep)]⟩

lemma multiple_le_floorToStep {step x : ℚ} (hstep : 0 < step) (k : ℤ)
    (h : (k : ℚ) * step ≤ x) : (k : ℚ) * step ≤ floorToStep x step := by
  unfold floorToStep
  rw [if_neg (not_le.mpr hstep)]
  have h1 : (k : ℚ) ≤ x / step := (le_div_iff₀ hstep).mpr h
  have h2 : (k : ℚ) ≤ (⌊x / step⌋ : ℚ) := by exact_mod_cast Int.le_floor.mpr h1
  exact mul_le_mul_of_nonneg_right h2 (le_of_lt hstep)

/-- The indices placed by the TP loop are exactly the splits with positive
percentage whose bare rounded quantity reaches the minimum. -/
lemma tpLoop_map_idx (size step minQty : ℚ) :
    ∀ (items : List (Nat × ℚ × ℚ)) (acc : ℚ),
      (tpLoop size step minQty items acc).map (·.idx)
        = (items.filter (fun it =>
            decide (0 < it.2.1) &&
            decide (minQty ≤ floorToStep (size * (it.2.1 / 100)) step))).map (·.1) := by
  intro items
  induction items with
  | nil => intro acc; rfl
  | cons hd rest ih =>
    intro acc
    obtain ⟨idx, pct, tp⟩ := hd
    by_cases h1 : pct ≤ 0
    · rw [tpLoop, if_pos h1, ih acc, List.filter_cons_of_neg (by simp [not_lt.mpr h1])]
    · have hpos : 0 < pct := not_le.mp h1
      by_cases h2 : floorToStep (size * (pct / 100)) step < minQty
      · rw [tpLoop, if_neg h1, if_pos h2, ih (acc + pct),
          List.filter_cons_of_neg (by simp [not_le.mpr h2])]
      · have hle : minQty ≤ floorToStep (size * (pct / 100)) step := not_lt.mp h2
        rw [tpLoop, if_neg h1, if_neg h2,
          List.filter_cons_of_pos (by simp [hpos, hle])]
        simp only [List.map_cons]
        rw [ih 0]

/-- Every order placed by the TP loop corresponds to one of its items, its
quantity is at least that split's bare rounded quantity (accumulation only
adds), and it is at least the minimum order quantity. -/
lemma tpLoop_qty_ge {size step minQty : ℚ} (hstep : 0 < step) (hsize : 0 ≤ size) :
    ∀ (items : List (Nat × ℚ × ℚ)) (acc : ℚ), 0 ≤ acc →
      ∀ o ∈ tpLoop size step minQty items acc,
        ∃ it ∈ items, it.1 = o.idx ∧
          floorToStep (size * (it.2.1 / 100)) step ≤ o.qty ∧ minQty ≤ o.qty := by
  intro items
  induction items with
  | nil => intro acc _ o ho; cases ho
  | cons hd rest ih =>
    intro acc hacc o ho
    obtain ⟨idx, pct, tp⟩ := hd
    by_cases h1 : pct ≤ 0
    · rw [tpLoop, if_pos h1] at ho
      obtain ⟨it, hit, h⟩ := ih acc hacc o ho
      exact ⟨it, List.mem_cons_of_mem _ hit, h⟩
    · by_cases h2 : floorToStep (size * (pct / 100)) step < minQty
      · rw [tpLoop, if_neg h1, if_pos h2] at ho
        have hacc' : 0 ≤ acc + pct := by
          have := not_le.mp h1
          linarith
        obtain ⟨it, hit, h⟩ := ih (acc + pct) hacc' o ho
        exact ⟨it, List.mem_cons_of_mem _ hit, h⟩
      · rw [tpLoop, if_neg h1, if_neg h2] at ho
        rcases List.mem_cons.mp ho with hhd | hrest
        · subst hhd
          refine ⟨(idx, pct, tp), List.mem_cons_self _ _, rfl, ?_, ?_⟩
          · show floorToStep (size * (pct / 100)) step ≤ _
            by_cases h3 : 0 < acc
            · simp only [if_pos h3]
              obtain ⟨k, hk⟩ := floorToStep_multiple hstep (size * (pct / 100))
              rw [hk]
              apply multiple_le_floorToStep hstep
              rw [← hk]
              have hextra : 0 ≤ floorToStep (size * (acc / 100)) step :=
                floorToStep_nonneg hstep
                  (mul_nonneg hsize (div_nonneg (le_of_lt h3) (by norm_num)))
              linarith
            · simp only [if_neg h3]
              exact le_rfl
          · show minQty ≤ _
            have hbase : minQty ≤ floorToStep (size * (pct / 100)) step := not_lt.mp h2
            by_cases h3 : 0 < acc
            · simp only [if_pos h3]
              obtain ⟨k, hk⟩ := floorToStep_multiple hstep (size * (pct / 100))
              have : floorToStep (size * (pct / 100)) step ≤
                  floorToStep (floorToStep (size * (pct / 100)) step +
                    floorToStep (size * (acc / 100)) step) step := by
                rw [hk]
                apply multiple_le_floorToStep hstep
                rw [← hk]
                have hextra : 0 ≤ floorToStep (size * (acc / 100)) step :=
                  floorToStep_nonneg hstep
                    (mul_nonneg hsize (div_nonneg (le_of_lt h3) (by norm_num)))
                linarith
              linarith
            · simp only [if_neg h3]
              exact hbase
        · obtain ⟨it, hit, h⟩ := ih 0 le_rfl o hrest
          exact ⟨it, List.mem_cons_of_mem _ hit, h⟩

/-- The total quantity placed by the TP loop is bounded by the un-rounded
allocation `size · (Σ pcts + acc) / 100`. -/
lemma tpLoop_sum_le {size step minQty : ℚ} (hstep : 0 < step) (hsize : 0 ≤ size) :
    ∀ (items : List (Nat × ℚ × ℚ)) (acc : ℚ), 0 ≤ acc →
      (∀ it ∈ items, 0 ≤ it.2.1) →
      ((tpLoop size step minQty items acc).map (·.qty)).sum
        ≤ size * (((items.map (·.2.1)).sum + acc) / 100) := by
  intro items
  induction items with
  | nil =>
    intro acc hacc _
    simp only [tpLoop, List.map_nil, List.sum_nil]
    positivity
  | cons hd rest ih =>
    intro acc hacc hpcts
    obtain ⟨idx, pct, tp⟩ := hd
    have hpct : 0 ≤ pct := hpcts (idx, pct, tp) (List.mem_cons_self _ _)
    have hrest : ∀ it ∈ rest, 0 ≤ it.2.1 :=
      fun it hit => hpcts it (List.mem_cons_of_mem _ hit)
    by_cases h1 : pct ≤ 0
    · rw [tpLoop, if_pos h1]
      have := ih acc hacc hrest
      simp only [List.map_cons, List.sum_cons]
      have hterm : (0 : ℚ) ≤ size * (pct / 100) :=
        mul_nonneg hsize (div_nonneg hpct (by norm_num))
      calc ((tpLoop size step minQty rest acc).map (·.qty)).sum
          ≤ size * (((rest.map (·.2.1)).sum + acc) / 100) := this
        _ ≤ size * ((pct + (rest.map (·.2.1)).sum + acc) / 100) := by
            gcongr
            linarith
    · by_cases h2 : floorToStep (size * (pct / 100)) step < minQty
      · rw [tpLoop, if_neg h1, if_pos h2]
        have hacc' : 0 ≤ acc + pct := add_nonneg hacc hpct
        have := ih (acc + pct) hacc' hrest
        simp only [List.map_cons, List.sum_cons]
        calc ((tpLoop size step minQty rest (acc + pct)).map (·.qty)).sum
            ≤ size * (((rest.map (·.2.1)).sum + (acc + pct)) / 100) := this
          _ = size * ((pct + (rest.map (·.2.1)).sum + acc) / 100) := by ring
      · rw [tpLoop, if_neg h1, if_neg h2]
        have hrec := ih 0 le_rfl hrest
        simp only [List.map_cons, List.sum_cons, add_zero] at hrec ⊢
        have hq : floorToStep (size * (pct / 100)) step ≤ size * (pct / 100) :=
          floorToStep_le hstep _
        have hqty2 : (if 0 < acc then
            floorToStep (floorToStep (size * (pct / 100)) step +
              floorToStep (size * (acc / 100)) step) step
          else floorToStep (size * (pct / 100)) step)
            ≤ size * (pct / 100) + size * (acc / 100) := by
          by_cases h3 : 0 < acc
          · rw [if_pos h3]
            have hextra : floorToStep (size * (acc / 100)) step ≤ size * (acc / 100) :=
              floorToStep_le hstep _
            calc floorToStep (floorToStep (size * (pct / 100)) step +
                  floorToStep (size * (acc / 100)) step) step
                ≤ floorToStep (size * (pct / 100)) step +
                  floorToStep (size * (acc / 100)) step := floorToStep_le hstep _
              _ ≤ size * (pct / 100) + size * (acc / 100) := by linarith
          · rw [if_neg h3]
            have hacc0 : acc = 0 := le_antisymm (not_lt.mp h3) hacc
            rw [hacc0]
            simpa using hq
        calc _ ≤ (size * (pct / 100) + size * (acc / 100)) +
              size * ((rest.map (·.2.1)).sum / 100) := by
              exact add_le_add hqty2 hrec
          _ = size * ((pct + (rest.map (·.2.1)).sum + acc) / 100) := by ring

/-- The total quantity placed by the TP loop is an integer multiple of the
quantity step. -/
lemma tpLoop_sum_multiple {size step minQty : ℚ} (hstep : 0 < step) :
    ∀ (items : List (Nat × ℚ × ℚ)) (acc : ℚ),
      ∃ k : ℤ, ((tpLoop size step minQty items acc).map (·.qty)).sum = (k : ℚ) * step := by
  intro items
  induction items with
  | nil => exact fun _ => ⟨0, by simp [tpLoop]⟩
  | cons hd rest ih =>
    intro acc
    obtain ⟨idx, pct, tp⟩ := hd
    by_cases h1 : pct ≤ 0
    · rw [tpLoop, if_pos h1]; exact ih acc
    · by_cases h2 : floorToStep (size * (pct / 100)) step < minQty
      · rw [tpLoop, if_neg h1, if_pos h2]; exact ih (acc + pct)
      · rw [tpLoop, if_neg h1, if_neg h2]
        obtain ⟨k, hk⟩ := ih 0
        by_cases h3 : 0 < acc
        · obtain ⟨m, hm⟩ := floorToStep_multiple hstep
            (floorToStep (size * (pct / 100)) step + floorToStep (size * (acc / 100)) step)
          refine ⟨m + k, ?_⟩
          simp only [List.map_cons, List.sum_cons, if_pos h3, hm, hk]
          push_cast
          ring
        · obtain ⟨m, hm⟩ := floorToStep_multiple hstep (size * (pct / 100))
          refine ⟨m + k, ?_⟩
          simp only [List.map_cons, List.sum_cons, if_neg h3, hm, hk]
          push_cast
          ring

lemma splits_getD_nonneg : ∀ i, (0 : ℚ) ≤ ([15, 25, 25, 25] : List ℚ).getD i 0 := by
  intro i
  match i with
  | 0 => norm_num [List.getD]
  | 1 => norm_num [List.getD]
  | 2 => norm_num [List.getD]
  | 3 => norm_num [List.getD]
  | (n + 4) =>
    rw [List.getD_eq_default]
    simp only [List.length_cons, List.length_nil]
    omega

lemma splits_getD_pos : ∀ i < 4, (0 : ℚ) < ([15, 25, 25, 25] : List ℚ).getD i 0 := by
  intro i hi
  interval_cases i <;> norm_num [List.getD]

/-- C3: with split table 15/25/25/25 and four target prices, if the combined
90% TP allocation rounds below the symbol minimum order quantity then no TP
order is placed at all (the degraded single 90% TP is itself the combined
allocation, hence also below minimum — "at most one, none if that is also
below M"); otherwise exactly the splits whose bare rounded quantity reaches
the minimum get an order, accumulation of skipped percentages never shrinks a
placed split below its own rounded size, every placed order is at least the
minimum, and the total placed quantity never exceeds the combined allocation
`floorToStep (0.9 · S)`. -/
theorem tp_split_allocation (cfg : Config) (size step minQty tick : ℚ)
    (tpPrices : List ℚ)
    (hsplits : cfg.tpSplits = [15, 25, 25, 25]) (hlen : tpPrices.length = 4)
    (hstep : 0 < step) (hsize : 0 ≤ size) :
    (floorToStep (size * (9 / 10)) step < minQty →
      buildTpOrders cfg size step minQty tick tpPrices = []) ∧
    (¬ floorToStep (size * (9 / 10)) step < minQty →
      (buildTpOrders cfg size step minQty tick tpPrices).map (·.idx)
        = (List.range 4).filter
            (fun i => decide (minQty ≤
              floorToStep (size * ((([15, 25, 25, 25] : List ℚ).getD i 0) / 100)) step))) ∧
    (∀ o ∈ buildTpOrders cfg size step minQty tick tpPrices,
      floorToStep (size * ((([15, 25, 25, 25] : List ℚ).getD o.idx 0) / 100)) step ≤ o.qty ∧
      minQty ≤ o.qty) ∧
    ((buildTpOrders cfg size step minQty tick tpPrices).map (·.qty)).sum
      ≤ floorToStep (size * (9 / 10)) step := by
  have hsum : (cfg.tpSplits.take (min tpPrices.length cfg.tpSplits.length)).sum / 100
      = (9 : ℚ) / 10 := by
    rw [hsplits, hlen]
    norm_num
  have hb : buildTpOrders cfg size step minQty tick tpPrices =
      (if floorToStep (size * (9 / 10)) step < minQty then
        match tpPrices.getLast? with
        | none => []
        | some lastP =>
          if minQty ≤ floorToStep (size * (9 / 10)) step then
            [⟨0, floorToStep (size * (9 / 10)) step, roundPrice lastP tick⟩]
          else []
      else
        tpLoop size step minQty
          ((List.range 4).map
            (fun i => (i, cfg.tpSplits.getD i 0,
              roundPrice (tpPrices.getD i 0) tick))) 0) := by
    have hmin4 : min tpPrices.length cfg.tpSplits.length = 4 := by
      rw [hsplits, hlen]
      rfl
    simp only [buildTpOrders]
    rw [hsum, hmin4]
  have hitems :
      ((List.range 4).map
        (fun i => (i, cfg.tpSplits.getD i 0, roundPrice (tpPrices.getD i 0) tick)))
      = ((List.range 4).map
        (fun i => (i, ([15, 25, 25, 25] : List ℚ).getD i 0,
          roundPrice (tpPrices.getD i 0) tick))) := by
    rw [hsplits]
  by_cases hd : floorToStep (size * (9 / 10)) step < minQty
  · -- degraded branch: TP quantity equals the combined allocation, so below min
    have hempty : buildTpOrders cfg size step minQty tick tpPrices = [] := by
      rw [hb, if_pos hd]
      split
      · rfl
      · rw [if_neg (not_le.mpr hd)]
    refine ⟨fun _ => hempty, fun h => absurd hd h, ?_, ?_⟩
    · rw [hempty]
      intro o ho
      cases ho
    · rw [hempty]
      simpa using floorToStep_nonneg hstep (mul_nonneg hsize (by norm_num))
  · have hloop : buildTpOrders cfg size step minQty tick tpPrices =
        tpLoop size step minQty
          ((List.range 4).map
            (fun i => (i, ([15, 25, 25, 25] : List ℚ).getD i 0,
              roundPrice (tpPrices.getD i 0) tick))) 0 := by
      rw [hb, if_neg hd, hitems]
    refine ⟨fun h => absurd h hd, fun _ => ?_, ?_, ?_⟩
    · -- placed indices = eligible splits
      rw [hloop, tpLoop_map_idx, List.filter_map, List.map_map]
      have hcomp : ((fun o : Nat × ℚ × ℚ => o.1) ∘
          (fun i => (i, ([15, 25, 25, 25] : List ℚ).getD i 0,
            roundPrice (tpPrices.getD i 0) tick))) = id := rfl
      rw [hcomp, List.map_id]
      apply List.filter_congr
      intro i hi
      have hpos := splits_getD_pos i (List.mem_range.mp hi)
      simp only [Function.comp]
      rw [decide_eq_true hpos, Bool.true_and]
    · -- every placed order dominates its bare split quantity and the minimum
      intro o ho
      rw [hloop] at ho
      obtain ⟨it, hit, hidx, hge, hmin⟩ :=
        tpLoop_qty_ge hstep hsize _ 0 le_rfl o ho
      obtain ⟨i, hi, rfl⟩ := List.mem_map.mp hit
      simp only at hidx hge
      rw [← hidx]
      exact ⟨hge, hmin⟩
    · -- total ≤ combined 90% allocation
      rw [hloop]
      have hnn : ∀ it ∈ ((List.range 4).map
          (fun i => (i, ([15, 25, 25, 25] : List ℚ).getD i 0,
            roundPrice (tpPrices.getD i 0) tick))), (0 : ℚ) ≤ it.2.1 := by
        intro it hit
        obtain ⟨i, hi, rfl⟩ := List.mem_map.mp hit
        exact splits_getD_nonneg i
      have hle := @tpLoop_sum_le size step minQty hstep hsize
        ((List.range 4).map
          (fun i => (i, ([15, 25, 25, 25] : List ℚ).getD i 0,
            roundPrice (tpPrices.getD i 0) tick))) 0 le_rfl hnn
      have hpcts : ((((List.range 4).map
          (fun i => (i, ([15, 25, 25, 25] : List ℚ).getD i 0,
            roundPrice (tpPrices.getD i 0) tick))).map (·.2.1)).sum + 0) / 100
          = (9 : ℚ) / 10 := by
        have hr : List.range 4 = [0, 1, 2, 3] := rfl
        rw [hr]
        norm_num [List.getD]
      rw [hpcts] at hle
      obtain ⟨k, hk⟩ := @tpLoop_sum_multiple size step minQty hstep
        ((List.range 4).map
          (fun i => (i, ([15, 25, 25, 25] : List ℚ).getD i 0,
            roundPrice (tpPrices.getD i 0) tick))) 0
      rw [hk] at hle ⊢
      exact multiple_le_floorToStep hstep k (by linarith [hle])

/-- Witness for C3 at a concrete input: size 10, step 0.1, min qty 0.5,
splits 15/25/25/25 over four targets.  TP1 rounds to 1.5 ≥ 0.5, so all four
splits are eligible, and the quantity total is bounded by `floorToStep 9 0.1`. -/
theorem tp_split_allocation_witness :
    (([15, 25, 25, 25] : List ℚ) = [15, 25, 25, 25] ∧ ([1, 2, 3, 4] : List ℚ).length = 4 ∧
      (0 : ℚ) < 1/10 ∧ (0 : ℚ) ≤ 10) ∧
    ((buildTpOrders
        ⟨5, 3/2, 5, 1/5, [15, 25, 25, 25], true, true, 4, 1, 45⟩
        10 (1/10) (1/2) (1/100) [1, 2, 3, 4]).map (·.qty)).sum
      ≤ floorToStep (10 * (9 / 10)) (1/10) := by
  refine ⟨⟨rfl, rfl, by norm_num, by norm_num⟩, ?_⟩
  exact (tp_split_allocation
    ⟨5, 3/2, 5, 1/5, [15, 25, 25, 25], true, true, 4, 1, 45⟩
    10 (1/10) (1/2) (1/100) [1, 2, 3, 4] rfl rfl (by norm_num) (by norm_num)).2.2.2

lemma roundHalfEven_intCast (k : ℤ) : roundHalfEven (k : ℚ) = k := by
  unfold roundHalfEven
  rw [Int.floor_intCast]
  simp

lemma roundTo10_eq_self {x : ℚ} (h : ∃ k : ℤ, x * 10 ^ 10 = (k : ℚ)) :
    roundTo10 x = x := by
  obtain ⟨k, hk⟩ := h
  unfold roundTo10
  rw [hk, roundHalfEven_intCast, ← hk]
  field_simp

/-- C9: `calc_base_qty` computes margin = equity·risk%/100, notional =
margin·leverage, qty = notional/price, floors to the quantity step, and
substitutes the exchange minimum instead of raising when the floored quantity
is below it; the returned quantity is never below the exchange minimum.  The
representability hypotheses say the exchange's step and minimum quantities
have at most 10 decimal places, so the final `%.10f` normalisation is exact. -/
theorem calc_base_qty_min_floor (equity riskPct leverage entryPrice step minQty : ℚ)
    (hstep : 0 < step)
    (hstepRep : ∃ a : ℤ, step * 10 ^ 10 = (a : ℚ))
    (hminRep : ∃ b : ℤ, minQty * 10 ^ 10 = (b : ℚ)) :
    calcBaseQty equity riskPct leverage entryPrice step minQty
      = (if floorToStep (equity * (riskPct / 100) * leverage / entryPrice) step < minQty
         then minQty
         else floorToStep (equity * (riskPct / 100) * leverage / entryPrice) step) ∧
    minQty ≤ calcBaseQty equity riskPct leverage entryPrice step minQty := by
  obtain ⟨a, ha⟩ := hstepRep
  obtain ⟨b, hb⟩ := hminRep
  have hqRep : ∃ k : ℤ,
      floorToStep (equity * (riskPct / 100) * leverage / entryPrice) step * 10 ^ 10
        = (k : ℚ) := by
    refine ⟨⌊equity * (riskPct / 100) * leverage / entryPrice / step⌋ * a, ?_⟩
    unfold floorToStep
    rw [if_neg (not_le.mpr hstep)]
    push_cast
    rw [mul_assoc, ha]
  have heq : calcBaseQty equity riskPct leverage entryPrice step minQty
      = (if floorToStep (equity * (riskPct / 100) * leverage / entryPrice) step < minQty
         then minQty
         else floorToStep (equity * (riskPct / 100) * leverage / entryPrice) step) := by
    simp only [calcBaseQty, roundQty]
    by_cases h : floorToStep (equity * (riskPct / 100) * leverage / entryPrice) step < minQty
    · rw [if_pos h]
      exact roundTo10_eq_self ⟨b, hb⟩
    · rw [if_neg h]
      exact roundTo10_eq_self hqRep
  refine ⟨heq, ?_⟩
  rw [heq]
  by_cases h : floorToStep (equity * (riskPct / 100) * leverage / entryPrice) step < minQty
  · rw [if_pos h]
  · rw [if_neg h]
    exact not_lt.mp h

/-- Witness for C9: equity 1000, risk 5%, leverage 10, price 100, step 0.1,
min qty 0.1 → raw qty 5, floored to 5, above the minimum. -/
theorem calc_base_qty_min_floor_witness :
    ((0 : ℚ) < 1/10 ∧
      calcBaseQty 1000 5 10 100 (1/10) (1/10)
        = (if floorToStep (1000 * ((5 : ℚ) / 100) * 10 / 100) (1/10) < 1/10
           then (1 : ℚ)/10
           else floorToStep (1000 * ((5 : ℚ) / 100) * 10 / 100) (1/10))) ∧
    (1 : ℚ)/10 ≤ calcBaseQty 1000 5 10 100 (1/10) (1/10) := by
  have h := calc_base_qty_min_floor 1000 5 10 100 (1/10) (1/10)
    (by norm_num) ⟨10 ^ 9, by norm_num⟩ ⟨10 ^ 9, by norm_num⟩
  exact ⟨⟨by norm_num, h.1⟩, h.2⟩

/-- One trade record (`open_trades[tid]` in the state blob).  Optional fields
model dict keys that may be absent or `None`; boolean flags read through
`tr.get(...)` default to `false` and lists to `[]`, matching the source's
access patterns. -/
structure Trade where
  id : String
  symbol : String
  orderSide : Side
  trigger : ℚ
  tpPrices : List ℚ
  slPrice : Option ℚ
  entryOrderId : Option String
  status : Status
  placedTs : ℚ
  filledTs : Option ℚ
  closedTs : Option ℚ
  baseQty : ℚ
  entryPrice : Option ℚ
  postOrdersPlaced : Bool
  tpOrderIds : List (Nat × Option String)
  tp1OrderId : Option String
  tpFills : Nat
  tpFillsList : List Nat
  slMovedToBe : Bool
  trailingStarted : Bool
  realizedPnl : Option ℚ
  isWin : Bool
  exitReason : Option String
deriving DecidableEq, Repr

/-- Python truthiness of an optional float: `None` and `0.0` are falsy. -/
def optTruthy : Option ℚ → Bool
  | none => false
  | some x => decide (x ≠ 0)

/-- `TradeEngine._determine_exit_reason`, with Python truthiness of
`pnl and pnl > 0` / `pnl is not None` rendered via `optTruthy`/`isSome`. -/
def determineExitReason (tr : Trade) : String :=
  let tpFills := tr.tpFills
  let tpCount := tr.tpPrices.length
  if tr.trailingStarted = true ∧ optTruthy tr.realizedPnl = true ∧
      0 < tr.realizedPnl.getD 0 then
    "trailing_stop"
  else if tpCount ≤ tpFills then
    "all_tps_hit"
  else if 0 < tpFills ∧ tr.slMovedToBe = true ∧ tr.realizedPnl.isSome = true ∧
      |tr.realizedPnl.getD 0| < 1 then
    "breakeven"
  else if 0 < tpFills then
    "tp" ++ toString tpFills ++ "_then_sl"
  else if optTruthy tr.realizedPnl = true ∧ tr.realizedPnl.getD 0 < 0 then
    "stop_loss"
  else
    "unknown"

/-- C7: exit-reason classification applies its rules in order, first match
wins: trailing started with positive realized PnL → trailing stop; else all
configured TPs filled → all targets; else some TP filled, stop at breakeven,
|PnL| under the negligible threshold 1 → breakeven; else some TP filled →
partial-then-stopped; else negative PnL → stop loss; else unknown. -/
theorem exit_reason_first_match (tr : Trade) :
    (tr.trailingStarted = true → (∃ p, tr.realizedPnl = some p ∧ 0 < p) →
      determineExitReason tr = "trailing_stop") ∧
    (¬ (tr.trailingStarted = true ∧ ∃ p, tr.realizedPnl = some p ∧ 0 < p) →
      tr.tpPrices.length ≤ tr.tpFills →
      determineExitReason tr = "all_tps_hit") ∧
    (¬ (tr.trailingStarted = true ∧ ∃ p, tr.realizedPnl = some p ∧ 0 < p) →
      ¬ tr.tpPrices.length ≤ tr.tpFills →
      0 < tr.tpFills → tr.slMovedToBe = true →
      (∃ p, tr.realizedPnl = some p ∧ |p| < 1) →
      determineExitReason tr = "breakeven") ∧
    (¬ (tr.trailingStarted = true ∧ ∃ p, tr.realizedPnl = some p ∧ 0 < p) →
      ¬ tr.tpPrices.length ≤ tr.tpFills →
      ¬ (0 < tr.tpFills ∧ tr.slMovedToBe = true ∧
          ∃ p, tr.realizedPnl = some p ∧ |p| < 1) →
      0 < tr.tpFills →
      determineExitReason tr = "tp" ++ toString tr.tpFills ++ "_then_sl") ∧
    (¬ (tr.trailingStarted = true ∧ ∃ p, tr.realizedPnl = some p ∧ 0 < p) →
      ¬ tr.tpPrices.length ≤ tr.tpFills →
      ¬ (0 < tr.tpFills) →
      (∃ p, tr.realizedPnl = some p ∧ p < 0) →
      determineExitReason tr = "stop_loss") ∧
    (¬ (tr.trailingStarted = true ∧ ∃ p, tr.realizedPnl = some p ∧ 0 < p) →
      ¬ tr.tpPrices.length ≤ tr.tpFills →
      ¬ (0 < tr.tpFills) →
      ¬ (∃ p, tr.realizedPnl = some p ∧ p < 0) →
      determineExitReason tr = "unknown") := by
  have htruthy_pos : (optTruthy tr.realizedPnl = true ∧ 0 < tr.realizedPnl.getD 0)
      ↔ (∃ p, tr.realizedPnl = some p ∧ 0 < p) := by
    cases h : tr.realizedPnl with
    | none => simp [optTruthy]
    | some p =>
      simp only [optTruthy, Option.getD_some, decide_eq_true_eq, Option.some_inj]
      constructor
      · rintro ⟨_, hp⟩
        exact ⟨p, rfl, hp⟩
      · rintro ⟨q, hq, hp⟩
        subst hq
        exact ⟨ne_of_gt hp, hp⟩
  have htruthy_neg : (optTruthy tr.realizedPnl = true ∧ tr.realizedPnl.getD 0 < 0)
      ↔ (∃ p, tr.realizedPnl = some p ∧ p < 0) := by
    cases h : tr.realizedPnl with
    | none => simp [optTruthy]
    | some p =>
      simp only [optTruthy, Option.getD_some, decide_eq_true_eq, Option.some_inj]
      constructor
      · rintro ⟨_, hp⟩
        exact ⟨p, rfl, hp⟩
      · rintro ⟨q, hq, hp⟩
        subst hq
        exact ⟨ne_of_lt hp, hp⟩
  have hsome_abs : (tr.realizedPnl.isSome = true ∧ |tr.realizedPnl.getD 0| < 1)
      ↔ (∃ p, tr.realizedPnl = some p ∧ |p| < 1) := by
    cases h : tr.realizedPnl with
    | none => simp
    | some p => simp
  refine ⟨?_, ?_, ?_, ?_, ?_, ?_⟩
  · intro ht hp
    unfold determineExitReason
    rw [if_pos ⟨ht, htruthy_pos.mpr hp⟩]
  · intro hc1 hc2
    unfold determineExitReason
    rw [if_neg (fun h => hc1 ⟨h.1, htruthy_pos.mp ⟨h.2.1, h.2.2⟩⟩), if_pos hc2]
  · intro hc1 hc2 hfills hbe hp
    unfold determineExitReason
    rw [if_neg (fun h => hc1 ⟨h.1, htruthy_pos.mp ⟨h.2.1, h.2.2⟩⟩), if_neg hc2,
      if_pos ⟨hfills, hbe, (hsome_abs.mpr hp).1, (hsome_abs.mpr hp).2⟩]
  · intro hc1 hc2 hc3 hfills
    unfold determineExitReason
    rw [if_neg (fun h => hc1 ⟨h.1, htruthy_pos.mp ⟨h.2.1, h.2.2⟩⟩), if_neg hc2,
      if_neg (fun h => hc3 ⟨h.1, h.2.1, hsome_abs.mp ⟨h.2.2.1, h.2.2.2⟩⟩),
      if_pos hfills]
  · intro hc1 hc2 hc4 hp
    unfold determineExitReason
    rw [if_neg (fun h => hc1 ⟨h.1, htruthy_pos.mp ⟨h.2.1, h.2.2⟩⟩), if_neg hc2,
      if_neg (fun h => hc4 h.1), if_neg hc4,
      if_pos ⟨(htruthy_neg.mpr hp).1, (htruthy_neg.mpr hp).2⟩]
  · intro hc1 hc2 hc4 hc5
    unfold determineExitReason
    rw [if_neg (fun h => hc1 ⟨h.1, htruthy_pos.mp ⟨h.2.1, h.2.2⟩⟩), if_neg hc2,
      if_neg (fun h => hc4 h.1), if_neg hc4,
      if_neg (fun h => hc5 (htruthy_neg.mp h))]

/-- Rounding to 2 decimal places (`round(_, 2)` on the SL distance). -/
def roundTo2 (x : ℚ) : ℚ := (roundHalfEven (x * 10 ^ 2) : ℚ) / 10 ^ 2

/-- Observable exchange-side actions emitted by the engine.  They record what
was submitted (and, for the stop-loss leg, whether the submission succeeded),
so that once-only properties can be stated as effect counts. -/
inductive Effect
  | openedNotify
  | setSl (price : ℚ) (ok : Bool)
  | placeTp (idx : Nat) (qty : ℚ) (price : ℚ)
  | moveSl (price : ℚ)
  | startTrailing
  | cancelPass
  | pnlFetch
  | closedNotify
  | archive
  | removeTrade
deriving DecidableEq, Repr

/-- `l.count e` through a decidable predicate. -/
def countE (e : Effect) (l : List Effect) : Nat :=
  l.countP (fun x => decide (x = e))

deriving instance DecidableEq for Except

/-- Exchange responses consumed by one engine call: the current time, the
instrument-rules fetch (qty_step, min_qty, tick_size — `.error` models a
raised request), the position query (size; avg price alongside), the candle
fetch, the last-price query, the execution event's price field (the first
truthy of execPrice/price/lastPrice, `none` if all are missing or zero), the
outcome of the stop-loss `set_trading_stop` call, the per-TP submission
outcomes (`none` = the future raised and was caught; `some r` = completed
with orderId `r`, which Bybit may omit), and the closed-PnL query. -/
structure Env where
  now : ℚ
  rules : Except Unit (ℚ × ℚ × ℚ)
  posSize : Except Unit ℚ
  posAvg : ℚ
  klines : Except Unit (List Candle)
  lastPriceE : Except Unit ℚ
  execPrice : Option ℚ
  slSetOk : Bool
  tpResults : List (Option (Option String))
  pnlRes : Except Unit ℚ
deriving DecidableEq, Repr

/-- `TradeEngine.place_post_entry_orders`, modelled for live (non-DRY_RUN)
operation.  `none` models the call raising before completion: the only
uncaught raise sites are the `entry_price` key access, the instrument-rules
fetch and the position query, all of which precede any mutation of the trade
record (the candle fetch is caught inside `_find_swing_point`, and every
SL/TP submission failure is caught inside the executor loop).  A completed
call sets `post_orders_placed` unconditionally at its last line. -/
def placePostEntryOrders (cfg : Config) (env : Env) (tr : Trade) :
    Option (Trade × List Effect) :=
  match tr.entryPrice with
  | none => none
  | some entry =>
    match env.rules with
    | .error _ => none
    | .ok (qtyStep, minQty, tickSize) =>
      match env.posSize with
      | .error _ => none
      | .ok size =>
        if size ≤ 0 then some (tr, [])
        else
          let slPrice0 :=
            match findSwingPoint cfg tr.orderSide entry env.klines with
            | some sl => sl
            | none =>
              match tr.orderSide with
              | .sell => entry * (1 + cfg.slPct / 100)
              | .buy => entry * (1 - cfg.slPct / 100)
          let slPrice := roundPrice slPrice0 tickSize
          let tpPrices :=
            if tr.tpPrices = [] then
              ([1, 2, 3, 4] : List ℚ).map (fun pct =>
                roundPrice
                  (match tr.orderSide with
                  | .sell => entry * (1 - pct / 100)
                  | .buy => entry * (1 + pct / 100)) tickSize)
            else tr.tpPrices
          let tpOrders := buildTpOrders cfg size qtyStep minQty tickSize tpPrices
          let completed := tpOrders.zip env.tpResults
          let newIds := completed.filterMap
            (fun p => p.2.map (fun r => (p.1.idx + 1, r)))
          let tp1New := (completed.filterMap
            (fun p => if p.1.idx = 0 then p.2 else none)).head?
          some ({ tr with
              slPrice := some slPrice,
              tpPrices := tpPrices,
              tpOrderIds := tr.tpOrderIds ++ newIds,
              tp1OrderId := tp1New.getD tr.tp1OrderId,
              postOrdersPlaced := true },
            Effect.setSl slPrice env.slSetOk ::
              tpOrders.map (fun o => Effect.placeTp o.idx o.qty o.price))

/-- A parsed client order identifier (`orderLinkId`): entry orders carry the
bare trade id, TP orders carry `"{trade_id}:TP{n}"`, and `other` covers links
that are empty, belong to another trade, or fail the `TP(\d+)` pattern. -/
inductive ExecLink
  | entry (tid : String)
  | tp (tid : String) (n : Nat)
  | other
deriving DecidableEq, Repr

/-- The trailing-activation tail of `TradeEngine.on_execution`'s TP branch:
gated by `TRAIL_ACTIVATE_ON_TP`, the configured trigger index and the
`trailing_started` flag.  `_start_trailing` fetches instrument rules and the
last price uncaught, so either raising aborts the handler with the flag still
unset; its own `set_trading_stop` failure is caught, so the flag is set
whether or not the submission succeeded. -/
def trailingStep (cfg : Config) (env : Env) (n : Nat) (tr : Trade)
    (effs : List Effect) : Trade × List Effect :=
  if cfg.trailActivateOnTp = true ∧ n = cfg.trailAfterTpIndex ∧
      ¬ tr.trailingStarted = true then
    match env.rules, env.lastPriceE with
    | .ok _, .ok _ =>
      ({ tr with trailingStarted := true }, effs ++ [Effect.startTrailing])
    | _, _ => (tr, effs)
  else (tr, effs)

/-- The entry-fill handling of `on_execution` (a link found in
`open_trades`), guarded by `status == "pending"`: record the fill price and
time, flip to open, emit the opened notification, and attempt post-entry
orders — that attempt is wrapped in try/except, so a raise keeps the
already-updated open trade. -/
def entryFillBranch (cfg : Config) (env : Env) (tr : Trade) : Trade × List Effect :=
  if tr.status = .pending then
    match placePostEntryOrders cfg env { tr with
        entryPrice := some (pyOr env.execPrice tr.trigger),
        status := .opened,
        filledTs := some env.now } with
    | some (tr2, effs) => (tr2, Effect.openedNotify :: effs)
    | none =>
      ({ tr with
          entryPrice := some (pyOr env.execPrice tr.trigger),
          status := .opened,
          filledTs := some env.now }, [Effect.openedNotify])
  else (tr, [])

/-- The fill-set insertion of `on_execution`'s TP branch: the index is
appended only if not yet present, and `tp_fills` mirrors the list length. -/
def recordTpFill (n : Nat) (tr : Trade) : Trade :=
  if n ∈ tr.tpFillsList then tr
  else { tr with tpFillsList := tr.tpFillsList ++ [n],
                 tpFills := (tr.tpFillsList ++ [n]).length }

/-- The TP-fill handling of `on_execution` (a `":TP"` link of this trade):
record the index, then move the stop to breakeven (gated by
`MOVE_SL_TO_BE_ON_TP1`, index 1 and `sl_moved_to_be`; `_move_sl`'s rules
fetch raising aborts the handler after the fill was recorded but before the
flag is set, while its `set_trading_stop` failures are retried and then
swallowed, the flag being set regardless), then trailing activation. -/
def tpFillBranch (cfg : Config) (env : Env) (n : Nat) (tr : Trade) :
    Trade × List Effect :=
  if cfg.moveSlToBeOnTp1 = true ∧ n = 1 ∧ ¬ (recordTpFill n tr).slMovedToBe = true then
    match env.rules with
    | .error _ => (recordTpFill n tr, [])
    | .ok (_, _, tickSize) =>
      trailingStep cfg env n { recordTpFill n tr with slMovedToBe := true }
        [Effect.moveSl (roundPrice
          (pyOr (recordTpFill n tr).entryPrice (recordTpFill n tr).trigger) tickSize)]
  else trailingStep cfg env n (recordTpFill n tr) []

/-- `TradeEngine.on_execution`, restricted to the single trade `tr`
(`open_trades` is keyed by trade id; an event link either equals this
trade's id, encodes `"{tr.id}:TPn"`, or concerns some other trade and leaves
`tr` untouched). -/
def onExecution (cfg : Config) (env : Env) (link : ExecLink) (tr : Trade) :
    Trade × List Effect :=
  match link with
  | .entry tid => if tid = tr.id then entryFillBranch cfg env tr else (tr, [])
  | .tp tid n => if tid = tr.id then tpFillBranch cfg env n tr else (tr, [])
  | .other => (tr, [])

/-- The entry-fill poll fallback of `maintenance_loop` (src/main.py): a
pending trade whose position query reports nonzero size and average price is
moved to `open`, the same transition the push path performs. -/
def pollFillStep (env : Env) (tr : Trade) : Trade :=
  if tr.status = .pending then
    match env.posSize with
    | .error _ => tr
    | .ok sz =>
      if 0 < sz ∧ 0 < env.posAvg then
        { tr with status := .opened, entryPrice := some env.posAvg,
                  filledTs := some env.now }
      else tr
  else tr

/-- The post-orders retry of `maintenance_loop`: for any `open` trade without
`post_orders_placed`, invoke `place_post_entry_orders`.  The boolean records
whether the sweep invoked placement on this tick; a raise inside the call
(`none`) is caught by the loop boundary and leaves the trade unchanged. -/
def sweepPostOrders (cfg : Config) (env : Env) (tr : Trade) :
    Trade × List Effect × Bool :=
  if tr.status = .opened ∧ tr.postOrdersPlaced = false then
    match placePostEntryOrders cfg env tr with
    | some (tr2, effs) => (tr2, effs, true)
    | none => (tr, [], true)
  else (tr, [], false)

/-- `TradeEngine.cancel_expired_entries`, per trade: a pending entry whose
age exceeds the expiration window is marked expired (the exchange-side
cancel may fail, which is caught, and the status is set regardless). -/
def cancelExpiredStep (cfg : Config) (env : Env) (tr : Trade) : Trade :=
  if tr.status = .pending then
    if tr.placedTs ≠ 0 ∧ cfg.entryExpirationMin * 60 < env.now - tr.placedTs then
      { tr with status := .expired }
    else tr
  else tr

/-- The pruning timestamp `closed_ts or placed_ts or 0` of
`cleanup_closed_trades` (Python `or`: `None` and `0.0` fall through). -/
def closedAt (tr : Trade) : ℚ := pyOr tr.closedTs tr.placedTs

/-- `trade["exit_reason"] = self._determine_exit_reason(trade)`. -/
def setExitReason (tr : Trade) : Trade :=
  { tr with exitReason := some (determineExitReason tr) }

/-- The record updates of the closure path in `cleanup_closed_trades` plus
`_fetch_and_store_trade_stats`: mark closed, stamp `closed_ts`, store the
fetched realized PnL, the win flag and the classified exit reason (a raised
PnL fetch stores `None` and reason "unknown" instead). -/
def closeTrade (env : Env) (tr : Trade) : Trade :=
  match env.pnlRes with
  | .ok p =>
    setExitReason
      { tr with
        status := .closed,
        closedTs := some env.now,
        realizedPnl := some p,
        isWin := decide (0 < p) }
  | .error _ =>
    { tr with
      status := .closed,
      closedTs := some env.now,
      realizedPnl := none,
      exitReason := some "unknown" }

/-- The closure-detection loop of `cleanup_closed_trades`, per trade: an
`open` trade whose position size reads zero is closed — child orders
cancelled, realized PnL fetched, exit reason classified, closed notification
sent (a raised position query is caught and skips the trade this tick). -/
def closeDetect (env : Env) (tr : Trade) : Trade × List Effect :=
  if tr.status = .opened then
    match env.posSize with
    | .error _ => (tr, [])
    | .ok size =>
      if size = 0 then
        (closeTrade env tr, [Effect.cancelPass, Effect.pnlFetch, Effect.closedNotify])
      else (tr, [])
  else (tr, [])

/-- One `cleanup_closed_trades` pass over a single trade (`none` = removed
from `open_trades`): the closure-detection loop, then the pruning loop, which
archives and deletes closed/expired trades older than the 86400 s
retention. -/
def cleanupTick (env : Env) : Option Trade → Option Trade × List Effect
  | none => (none, [])
  | some tr =>
    if ((closeDetect env tr).1.status = .closed ∨
        (closeDetect env tr).1.status = .expired) ∧
        closedAt (closeDetect env tr).1 < env.now - 86400 then
      (none, (closeDetect env tr).2 ++ [Effect.archive, Effect.removeTrade])
    else (some (closeDetect env tr).1, (closeDetect env tr).2)

/-- A sequence of maintenance ticks, each running `cleanup_closed_trades`
over the trade, threading the (possibly removed) record and concatenating
the emitted effects. -/
def runTicks : List Env → Option Trade → Option Trade × List Effect
  | [], s => (s, [])
  | e :: rest, s =>
    ((runTicks rest (cleanupTick e s).1).1,
      (cleanupTick e s).2 ++ (runTicks rest (cleanupTick e s).1).2)

/-- The status-mutating operations of the engine: push execution events, the
poll-path entry-fill fallback, entry expiration, and the closure sweep. -/
inductive Op
  | execEvent (link : ExecLink)
  | pollFill
  | cancelExpired
  | cleanup
deriving DecidableEq, Repr

/-- The trade record after one operation (`none` = removed by pruning). -/
def engineStep (cfg : Config) (env : Env) (op : Op) (tr : Trade) : Option Trade :=
  match op with
  | .execEvent link => some (onExecution cfg env link tr).1
  | .pollFill => some (pollFillStep env tr)
  | .cancelExpired => some (cancelExpiredStep cfg env tr)
  | .cleanup => (cleanupTick env (some tr)).1

/-- The status edges the specification allows: pending → open, pending →
expired, open → closed. -/
def allowedEdge (a b : Status) : Prop :=
  (a = .pending ∧ b = .opened) ∨ (a = .pending ∧ b = .expired) ∨
  (a = .opened ∧ b = .closed)

/-- `place_post_entry_orders` never touches the identity, status, fill list,
or milestone flags of the trade (it only writes SL/TP bookkeeping fields and
`post_orders_placed`). -/
lemma placePostEntryOrders_shape (cfg : Config) (env : Env) (tr tr' : Trade)
    (effs : List Effect)
    (h : placePostEntryOrders cfg env tr = some (tr', effs)) :
    tr'.status = tr.status ∧ tr'.id = tr.id ∧ tr'.tpFillsList = tr.tpFillsList ∧
    tr'.slMovedToBe = tr.slMovedToBe ∧ tr'.trailingStarted = tr.trailingStarted := by
  unfold placePostEntryOrders at h
  split at h
  · simp at h
  · split at h
    · simp at h
    · split at h
      · simp at h
      · split at h
        · simp only [Option.some.injEq, Prod.mk.injEq] at h
          obtain ⟨h1, _⟩ := h
          subst h1
          exact ⟨rfl, rfl, rfl, rfl, rfl⟩
        · simp only [Option.some.injEq, Prod.mk.injEq] at h
          obtain ⟨h1, _⟩ := h
          subst h1
          exact ⟨rfl, rfl, rfl, rfl, rfl⟩

/-- `_start_trailing` activation only ever sets `trailing_started`; identity,
status, fill list and the breakeven flag pass through. -/
lemma trailingStep_shape (cfg : Config) (env : Env) (n : Nat) (tr : Trade)
    (effs : List Effect) :
    (trailingStep cfg env n tr effs).1.status = tr.status ∧
    (trailingStep cfg env n tr effs).1.id = tr.id ∧
    (trailingStep cfg env n tr effs).1.tpFillsList = tr.tpFillsList ∧
    (trailingStep cfg env n tr effs).1.slMovedToBe = tr.slMovedToBe := by
  unfold trailingStep
  split
  · split
    · exact ⟨rfl, rfl, rfl, rfl⟩
    · exact ⟨rfl, rfl, rfl, rfl⟩
  · exact ⟨rfl, rfl, rfl, rfl⟩

/-- Re-running the trailing-activation step on its own result (with the same
environment) is a no-op with no new effects. -/
lemma trailingStep_idem (cfg : Config) (env : Env) (n : Nat) (tr : Trade)
    (effs : List Effect) :
    trailingStep cfg env n ((trailingStep cfg env n tr effs).1) []
      = ((trailingStep cfg env n tr effs).1, []) := by
  by_cases hc : cfg.trailActivateOnTp = true ∧ n = cfg.trailAfterTpIndex ∧
      ¬ tr.trailingStarted = true
  · cases hr : env.rules with
    | error e => simp [trailingStep, hr, hc]
    | ok r =>
      cases hl : env.lastPriceE with
      | error e => simp [trailingStep, hr, hl, hc]
      | ok lp => simp [trailingStep, hr, hl, hc, hc.1, hc.2.1]
  · have h1 : trailingStep cfg env n tr effs = (tr, effs) := by
      unfold trailingStep
      rw [if_neg hc]
    rw [h1]
    unfold trailingStep
    rw [if_neg hc]

/-- The closure transition always produces status `closed`. -/
lemma closeTrade_status (env : Env) (tr : Trade) :
    (closeTrade env tr).status = .closed := by
  unfold closeTrade
  cases env.pnlRes <;> rfl

/-- A non-open trade passes through closure detection untouched. -/
lemma closeDetect_not_open (env : Env) (tr : Trade) (h : ¬ tr.status = .opened) :
    closeDetect env tr = (tr, []) := by
  unfold closeDetect
  rw [if_neg h]

/-- Closure detection either leaves the trade alone or closes an open one. -/
lemma closeDetect_cases (env : Env) (tr : Trade) :
    closeDetect env tr = (tr, []) ∨
    (tr.status = .opened ∧ closeDetect env tr
      = (closeTrade env tr, [Effect.cancelPass, Effect.pnlFetch, Effect.closedNotify])) := by
  unfold closeDetect
  by_cases hp : tr.status = .opened
  · rw [if_pos hp]
    cases hps : env.posSize with
    | error e => exact Or.inl rfl
    | ok sz =>
      by_cases h0 : sz = 0
      · right
        refine ⟨hp, ?_⟩
        simp [h0]
      · left
        simp [h0]
  · rw [if_neg hp]
    exact Or.inl rfl

/-- The closure sweep on a surviving trade either keeps the status or closes
an open trade whose position size reads zero. -/
lemma cleanupTick_status (env : Env) (tr tr' : Trade)
    (h : (cleanupTick env (some tr)).1 = some tr') :
    tr'.status = tr.status ∨ (tr.status = .opened ∧ tr'.status = .closed) := by
  have hceq : cleanupTick env (some tr)
      = (if ((closeDetect env tr).1.status = .closed ∨
            (closeDetect env tr).1.status = .expired) ∧
            closedAt (closeDetect env tr).1 < env.now - 86400 then
          (none, (closeDetect env tr).2 ++ [Effect.archive, Effect.removeTrade])
        else (some (closeDetect env tr).1, (closeDetect env tr).2)) := rfl
  rw [hceq] at h
  split at h
  · simp at h
  · rcases closeDetect_cases env tr with hc | ⟨hop, hc⟩
    · rw [hc] at h
      simp at h
      subst h
      exact Or.inl rfl
    · rw [hc] at h
      simp at h
      subst h
      exact Or.inr ⟨hop, closeTrade_status env tr⟩

/-- The entry-fill branch opens a pending trade and leaves any other status
alone (returning the trade unchanged). -/
lemma entryFillBranch_status (cfg : Config) (env : Env) (tr : Trade) :
    (tr.status = .pending → (entryFillBranch cfg env tr).1.status = .opened) ∧
    (¬ tr.status = .pending → entryFillBranch cfg env tr = (tr, [])) := by
  constructor
  · intro hp
    unfold entryFillBranch
    rw [if_pos hp]
    cases hpp : placePostEntryOrders cfg env
        { tr with entryPrice := some (pyOr env.execPrice tr.trigger),
                  status := .opened, filledTs := some env.now } with
    | none => rfl
    | some p =>
      obtain ⟨tr2, effs⟩ := p
      have hs := (placePostEntryOrders_shape cfg env _ tr2 effs hpp).1
      simp only
      exact hs
  · intro hp
    unfold entryFillBranch
    rw [if_neg hp]

lemma recordTpFill_status (n : Nat) (tr : Trade) :
    (recordTpFill n tr).status = tr.status := by
  unfold recordTpFill
  split <;> rfl

/-- The TP-fill branch never changes a trade's status. -/
lemma tpFillBranch_status (cfg : Config) (env : Env) (n : Nat) (tr : Trade) :
    (tpFillBranch cfg env n tr).1.status = tr.status := by
  unfold tpFillBranch
  by_cases hbe : cfg.moveSlToBeOnTp1 = true ∧ n = 1 ∧
      ¬ (recordTpFill n tr).slMovedToBe = true
  · rw [if_pos hbe]
    cases hr : env.rules with
    | error e => exact recordTpFill_status n tr
    | ok r =>
      obtain ⟨q, m, t⟩ := r
      have := (trailingStep_shape cfg env n
        { recordTpFill n tr with slMovedToBe := true }
        [Effect.moveSl (roundPrice
          (pyOr (recordTpFill n tr).entryPrice (recordTpFill n tr).trigger) t)]).1
      simp only at this ⊢
      rw [this]
      exact recordTpFill_status n tr
  · rw [if_neg hbe,
      (trailingStep_shape cfg env n (recordTpFill n tr) []).1]
    exact recordTpFill_status n tr

/-- C1: every operation of the engine — execution events (entry fill, TP
fill, breakeven, trailing), the poll-path entry-fill fallback, entry
expiration, and the closure/pruning sweep — either leaves a trade's status
unchanged or moves it along one of the forward edges pending → open,
pending → expired, open → closed. -/
theorem status_transitions_forward (cfg : Config) (env : Env) (op : Op)
    (tr tr' : Trade) (h : engineStep cfg env op tr = some tr') :
    tr'.status = tr.status ∨ allowedEdge tr.status tr'.status := by
  cases op with
  | execEvent link =>
    simp only [engineStep, Option.some.injEq] at h
    subst h
    cases link with
    | entry tid =>
      simp only [onExecution]
      split
      · by_cases hp : tr.status = .pending
        · exact Or.inr (Or.inl ⟨hp, (entryFillBranch_status cfg env tr).1 hp⟩)
        · rw [(entryFillBranch_status cfg env tr).2 hp]
          exact Or.inl rfl
      · exact Or.inl rfl
    | tp tid n =>
      simp only [onExecution]
      split
      · exact Or.inl (tpFillBranch_status cfg env n tr)
      · exact Or.inl rfl
    | other =>
      exact Or.inl rfl
  | pollFill =>
    simp only [engineStep, Option.some.injEq] at h
    subst h
    unfold pollFillStep
    by_cases hp : tr.status = .pending
    · rw [if_pos hp]
      cases hps : env.posSize with
      | error e =>
        left
        rfl
      | ok sz =>
        by_cases hsz : 0 < sz ∧ 0 < env.posAvg
        · right
          left
          refine ⟨hp, ?_⟩
          simp [hsz]
        · left
          simp [hsz]
    · rw [if_neg hp]
      left
      rfl
  | cancelExpired =>
    simp only [engineStep, Option.some.injEq] at h
    subst h
    unfold cancelExpiredStep
    by_cases hp : tr.status = .pending
    · rw [if_pos hp]
      by_cases hage : tr.placedTs ≠ 0 ∧ cfg.entryExpirationMin * 60 < env.now - tr.placedTs
      · rw [if_pos hage]
        exact Or.inr (Or.inr (Or.inl ⟨hp, rfl⟩))
      · rw [if_neg hage]
        exact Or.inl rfl
    · rw [if_neg hp]
      exact Or.inl rfl
  | cleanup =>
    simp only [engineStep] at h
    rcases cleanupTick_status env tr tr' h with h1 | h1
    · exact Or.inl h1
    · exact Or.inr (Or.inr (Or.inr h1))


/-- Witness for C1 at a concrete input: the poll-path fill on a pending trade
takes the pending → open edge. -/
theorem status_transitions_forward_witness :
    engineStep
        ⟨5, 3/2, 5, 1/5, [15, 25, 25, 25], true, true, 4, 1, 45⟩
        ⟨100, .ok (0, 0, 0), .ok 2, 50, .error (), .ok 50, none, true, [], .ok 0⟩
        .pollFill
        ⟨"T1", "EPICUSDT", .sell, 59/100, [], none, some "o1", .pending, 10, none,
          none, 2, none, false, [], none, 0, [], false, false, none, false, none⟩
      = some
        ⟨"T1", "EPICUSDT", .sell, 59/100, [], none, some "o1", .opened, 10, some 100,
          none, 2, some 50, false, [], none, 0, [], false, false, none, false, none⟩ ∧
    (Status.opened = Status.pending ∨ allowedEdge Status.pending Status.opened) := by
  constructor
  · rfl
  · exact status_transitions_forward
      ⟨5, 3/2, 5, 1/5, [15, 25, 25, 25], true, true, 4, 1, 45⟩
      ⟨100, .ok (0, 0, 0), .ok 2, 50, .error (), .ok 50, none, true, [], .ok 0⟩
      .pollFill
      ⟨"T1", "EPICUSDT", .sell, 59/100, [], none, some "o1", .pending, 10, none,
        none, 2, none, false, [], none, 0, [], false, false, none, false, none⟩
      ⟨"T1", "EPICUSDT", .sell, 59/100, [], none, some "o1", .opened, 10, some 100,
        none, 2, some 50, false, [], none, 0, [], false, false, none, false, none⟩
      rfl

lemma recordTpFill_facts (n : Nat) (tr : Trade) :
    n ∈ (recordTpFill n tr).tpFillsList ∧
    (recordTpFill n tr).id = tr.id ∧
    (recordTpFill n tr).slMovedToBe = tr.slMovedToBe := by
  unfold recordTpFill
  by_cases h : n ∈ tr.tpFillsList
  · rw [if_pos h]
    exact ⟨h, rfl, rfl⟩
  · rw [if_neg h]
    refine ⟨?_, rfl, rfl⟩
    simp

lemma recordTpFill_of_mem (n : Nat) (tr : Trade) (h : n ∈ tr.tpFillsList) :
    recordTpFill n tr = tr := by
  unfold recordTpFill
  rw [if_pos h]

lemma recordTpFill_nodup (n : Nat) (tr : Trade) (h : tr.tpFillsList.Nodup) :
    (recordTpFill n tr).tpFillsList.Nodup := by
  unfold recordTpFill
  by_cases hm : n ∈ tr.tpFillsList
  · rw [if_pos hm]
    exact h
  · rw [if_neg hm]
    simp [List.nodup_append, h, hm]

/-- The identity and fill list of the trade after the TP branch: the id is
unchanged and the fill list is exactly the one `recordTpFill` produced. -/
lemma tpFillBranch_shape (cfg : Config) (env : Env) (n : Nat) (tr : Trade) :
    (tpFillBranch cfg env n tr).1.id = tr.id ∧
    (tpFillBranch cfg env n tr).1.tpFillsList = (recordTpFill n tr).tpFillsList := by
  unfold tpFillBranch
  by_cases hbe : cfg.moveSlToBeOnTp1 = true ∧ n = 1 ∧
      ¬ (recordTpFill n tr).slMovedToBe = true
  · rw [if_pos hbe]
    cases hr : env.rules with
    | error e => exact ⟨(recordTpFill_facts n tr).2.1, rfl⟩
    | ok r =>
      obtain ⟨q, m, t⟩ := r
      have hs := trailingStep_shape cfg env n
        { recordTpFill n tr with slMovedToBe := true }
        [Effect.moveSl (roundPrice
          (pyOr (recordTpFill n tr).entryPrice (recordTpFill n tr).trigger) t)]
      refine ⟨?_, ?_⟩
      · simp only at hs ⊢
        rw [hs.2.1]
        exact (recordTpFill_facts n tr).2.1
      · simp only at hs ⊢
        rw [hs.2.2.1]
  · rw [if_neg hbe]
    have hs := trailingStep_shape cfg env n (recordTpFill n tr) []
    exact ⟨hs.2.1.trans (recordTpFill_facts n tr).2.1, hs.2.2.1⟩

lemma tpFillBranch_be_error (cfg : Config) (env : Env) (n : Nat) (tr : Trade)
    (e : Unit)
    (hbe : cfg.moveSlToBeOnTp1 = true ∧ n = 1 ∧
      ¬ (recordTpFill n tr).slMovedToBe = true)
    (hr : env.rules = .error e) :
    tpFillBranch cfg env n tr = (recordTpFill n tr, []) := by
  unfold tpFillBranch
  rw [if_pos hbe, hr]

lemma tpFillBranch_be_ok (cfg : Config) (env : Env) (n : Nat) (tr : Trade)
    (q m t : ℚ)
    (hbe : cfg.moveSlToBeOnTp1 = true ∧ n = 1 ∧
      ¬ (recordTpFill n tr).slMovedToBe = true)
    (hr : env.rules = .ok (q, m, t)) :
    tpFillBranch cfg env n tr
      = trailingStep cfg env n { recordTpFill n tr with slMovedToBe := true }
          [Effect.moveSl (roundPrice
            (pyOr (recordTpFill n tr).entryPrice (recordTpFill n tr).trigger) t)] := by
  unfold tpFillBranch
  rw [if_pos hbe, hr]

lemma tpFillBranch_not_be (cfg : Config) (env : Env) (n : Nat) (tr : Trade)
    (hbe : ¬ (cfg.moveSlToBeOnTp1 = true ∧ n = 1 ∧
      ¬ (recordTpFill n tr).slMovedToBe = true)) :
    tpFillBranch cfg env n tr = trailingStep cfg env n (recordTpFill n tr) [] := by
  unfold tpFillBranch
  rw [if_neg hbe]

/-- Re-delivering the same TP-fill event to the TP branch is a no-op: the
index is already recorded, the breakeven gate is closed (or fails
identically), and the trailing gate is closed (or fails identically). -/
lemma tpFillBranch_idem (cfg : Config) (env : Env) (n : Nat) (tr : Trade) :
    tpFillBranch cfg env n ((tpFillBranch cfg env n tr).1)
      = ((tpFillBranch cfg env n tr).1, []) := by
  by_cases hbe : cfg.moveSlToBeOnTp1 = true ∧ n = 1 ∧
      ¬ (recordTpFill n tr).slMovedToBe = true
  · cases hr : env.rules with
    | error e =>
      have h1 := tpFillBranch_be_error cfg env n tr e hbe hr
      rw [h1]
      have hmem : n ∈ (recordTpFill n tr).tpFillsList := (recordTpFill_facts n tr).1
      have hrec : recordTpFill n (recordTpFill n tr) = recordTpFill n tr :=
        recordTpFill_of_mem n _ hmem
      have hbe2 : cfg.moveSlToBeOnTp1 = true ∧ n = 1 ∧
          ¬ (recordTpFill n (recordTpFill n tr)).slMovedToBe = true := by
        rw [hrec]
        exact hbe
      have h2 := tpFillBranch_be_error cfg env n (recordTpFill n tr) e hbe2 hr
      rw [hrec] at h2
      exact h2
    | ok r =>
      obtain ⟨q, m, t⟩ := r
      have h1 := tpFillBranch_be_ok cfg env n tr q m t hbe hr
      rw [h1]
      have hts := trailingStep_shape cfg env n
        { recordTpFill n tr with slMovedToBe := true }
        [Effect.moveSl (roundPrice
          (pyOr (recordTpFill n tr).entryPrice (recordTpFill n tr).trigger) t)]
      have hmem2 : n ∈ ((trailingStep cfg env n
          { recordTpFill n tr with slMovedToBe := true }
          [Effect.moveSl (roundPrice
            (pyOr (recordTpFill n tr).entryPrice (recordTpFill n tr).trigger) t)]).1).tpFillsList := by
        rw [hts.2.2.1]
        exact (recordTpFill_facts n tr).1
      have hrec2 := recordTpFill_of_mem n _ hmem2
      have hbe2 : ¬ (cfg.moveSlToBeOnTp1 = true ∧ n = 1 ∧
          ¬ (recordTpFill n ((trailingStep cfg env n
            { recordTpFill n tr with slMovedToBe := true }
            [Effect.moveSl (roundPrice
              (pyOr (recordTpFill n tr).entryPrice (recordTpFill n tr).trigger) t)]).1)).slMovedToBe = true) := by
        rw [hrec2]
        intro hcon
        apply hcon.2.2
        rw [hts.2.2.2]
      have h2 := tpFillBranch_not_be cfg env n _ hbe2
      rw [h2, hrec2]
      exact trailingStep_idem cfg env n
        { recordTpFill n tr with slMovedToBe := true }
        [Effect.moveSl (roundPrice
          (pyOr (recordTpFill n tr).entryPrice (recordTpFill n tr).trigger) t)]
  · have h1 := tpFillBranch_not_be cfg env n tr hbe
    rw [h1]
    have hts := trailingStep_shape cfg env n (recordTpFill n tr) []
    have hmem2 : n ∈ ((trailingStep cfg env n (recordTpFill n tr) []).1).tpFillsList := by
      rw [hts.2.2.1]
      exact (recordTpFill_facts n tr).1
    have hrec2 := recordTpFill_of_mem n _ hmem2
    have hbe2 : ¬ (cfg.moveSlToBeOnTp1 = true ∧ n = 1 ∧
        ¬ (recordTpFill n ((trailingStep cfg env n (recordTpFill n tr) []).1)).slMovedToBe = true) := by
      rw [hrec2]
      intro hcon
      apply hbe
      refine ⟨hcon.1, hcon.2.1, ?_⟩
      rw [← hts.2.2.2]
      exact hcon.2.2
    have h2 := tpFillBranch_not_be cfg env n _ hbe2
    rw [h2, hrec2]
    exact trailingStep_idem cfg env n (recordTpFill n tr) []

/-- The identity and fill list of the trade after the entry branch. -/
lemma entryFillBranch_shape (cfg : Config) (env : Env) (tr : Trade) :
    (entryFillBranch cfg env tr).1.id = tr.id ∧
    (entryFillBranch cfg env tr).1.tpFillsList = tr.tpFillsList := by
  unfold entryFillBranch
  by_cases hp : tr.status = .pending
  · rw [if_pos hp]
    cases hpp : placePostEntryOrders cfg env
        { tr with entryPrice := some (pyOr env.execPrice tr.trigger),
                  status := .opened, filledTs := some env.now } with
    | none => exact ⟨rfl, rfl⟩
    | some p =>
      obtain ⟨tr2, effs⟩ := p
      have hs := placePostEntryOrders_shape cfg env _ tr2 effs hpp
      exact ⟨hs.2.1, hs.2.2.1⟩
  · rw [if_neg hp]
    exact ⟨rfl, rfl⟩

/-- Re-delivering the same entry-fill event to the entry branch is a no-op:
the trade is no longer pending after the first delivery. -/
lemma entryFillBranch_idem (cfg : Config) (env : Env) (tr : Trade) :
    entryFillBranch cfg env ((entryFillBranch cfg env tr).1)
      = ((entryFillBranch cfg env tr).1, []) := by
  by_cases hp : tr.status = .pending
  · have ho := (entryFillBranch_status cfg env tr).1 hp
    exact (entryFillBranch_status cfg env _).2 (by rw [ho]; simp)
  · have he := (entryFillBranch_status cfg env tr).2 hp
    rw [he]
    exact (entryFillBranch_status cfg env tr).2 hp

/-- C2: delivering the same execution event twice leaves the trade exactly
as after one delivery and emits no further effects — a repeated entry fill is
a no-op once the trade is no longer pending, a repeated TP index is not
re-inserted, and breakeven and trailing activation are gated by their flags —
and `tp_fills_list` stays duplicate-free. -/
theorem on_execution_idempotent (cfg : Config) (env : Env) (link : ExecLink)
    (tr : Trade) :
    onExecution cfg env link ((onExecution cfg env link tr).1)
      = ((onExecution cfg env link tr).1, []) ∧
    (tr.tpFillsList.Nodup → (onExecution cfg env link tr).1.tpFillsList.Nodup) := by
  cases link with
  | other => exact ⟨rfl, fun h => h⟩
  | entry tid =>
    by_cases hid : tid = tr.id
    · have h0 : onExecution cfg env (.entry tid) tr = entryFillBranch cfg env tr := by
        simp [onExecution, hid]
      constructor
      · rw [h0]
        have hid2 : tid = (entryFillBranch cfg env tr).1.id := by
          rw [(entryFillBranch_shape cfg env tr).1]
          exact hid
        have h1 : onExecution cfg env (.entry tid) ((entryFillBranch cfg env tr).1)
            = entryFillBranch cfg env ((entryFillBranch cfg env tr).1) := by
          simp [onExecution, hid2]
        rw [h1]
        exact entryFillBranch_idem cfg env tr
      · intro h
        rw [h0, (entryFillBranch_shape cfg env tr).2]
        exact h
    · have h0 : onExecution cfg env (.entry tid) tr = (tr, []) := by
        simp [onExecution, hid]
      exact ⟨by rw [h0]; exact h0, fun h => by rw [h0]; exact h⟩
  | tp tid n =>
    by_cases hid : tid = tr.id
    · have h0 : onExecution cfg env (.tp tid n) tr = tpFillBranch cfg env n tr := by
        simp [onExecution, hid]
      constructor
      · rw [h0]
        have hid2 : tid = (tpFillBranch cfg env n tr).1.id := by
          rw [(tpFillBranch_shape cfg env n tr).1]
          exact hid
        have h1 : onExecution cfg env (.tp tid n) ((tpFillBranch cfg env n tr).1)
            = tpFillBranch cfg env n ((tpFillBranch cfg env n tr).1) := by
          simp [onExecution, hid2]
        rw [h1]
        exact tpFillBranch_idem cfg env n tr
      · intro h
        rw [h0, (tpFillBranch_shape cfg env n tr).2]
        exact recordTpFill_nodup n tr h
    · have h0 : onExecution cfg env (.tp tid n) tr = (tr, []) := by
        simp [onExecution, hid]
      exact ⟨by rw [h0]; exact h0, fun h => by rw [h0]; exact h⟩

/-- Witness for C2 at a concrete input: a TP1-fill event delivered to an open
trade with breakeven enabled; the second delivery changes nothing and emits
nothing, and the fill list stays duplicate-free. -/
theorem on_execution_idempotent_witness :
    ([] : List Nat).Nodup ∧
    (onExecution
        ⟨5, 3/2, 5, 1/5, [15, 25, 25, 25], true, true, 4, 1, 45⟩
        ⟨100, .ok (0, 0, 0), .ok 2, 50, .error (), .ok 50, none, true, [], .ok 0⟩
        (.tp "T1" 1)
        ⟨"T1", "EPICUSDT", .sell, 59/100, [58/100], none, some "o1", .opened, 10,
          some 20, none, 2, some (3/5), true, [], none, 0, [], false, false, none,
          false, none⟩).1.tpFillsList.Nodup := by
  have h := on_execution_idempotent
    ⟨5, 3/2, 5, 1/5, [15, 25, 25, 25], true, true, 4, 1, 45⟩
    ⟨100, .ok (0, 0, 0), .ok 2, 50, .error (), .ok 50, none, true, [], .ok 0⟩
    (.tp "T1" 1)
    ⟨"T1", "EPICUSDT", .sell, 59/100, [58/100], none, some "o1", .opened, 10,
      some 20, none, 2, some (3/5), true, [], none, 0, [], false, false, none,
      false, none⟩
  exact ⟨List.nodup_nil, h.2 List.nodup_nil⟩

lemma countE_append (e : Effect) (l1 l2 : List Effect) :
    countE e (l1 ++ l2) = countE e l1 + countE e l2 := by
  simp [countE, List.countP_append]

lemma cleanupTick_some_eq (env : Env) (tr : Trade) :
    cleanupTick env (some tr)
      = (if ((closeDetect env tr).1.status = .closed ∨
            (closeDetect env tr).1.status = .expired) ∧
            closedAt (closeDetect env tr).1 < env.now - 86400 then
          (none, (closeDetect env tr).2 ++ [Effect.archive, Effect.removeTrade])
        else (some (closeDetect env tr).1, (closeDetect env tr).2)) := rfl

/-- A sweep tick over an already-closed trade emits nothing except, once the
retention age has passed, the archive-and-remove pair. -/
lemma cleanupTick_closed (env : Env) (tr : Trade) (h : tr.status = .closed) :
    cleanupTick env (some tr)
      = if closedAt tr < env.now - 86400 then
          (none, [Effect.archive, Effect.removeTrade])
        else (some tr, []) := by
  rw [cleanupTick_some_eq, closeDetect_not_open env tr (by rw [h]; simp)]
  by_cases hage : closedAt tr < env.now - 86400
  · rw [if_pos ⟨Or.inl h, hage⟩, if_pos hage]
    rfl
  · rw [if_neg (fun hcon => hage hcon.2), if_neg hage]

/-- A sweep tick over an open trade whose position size reads zero performs
the closed transition: one cancellation pass, one PnL fetch, one closed
notification (and, only if the zero-time stamp already exceeds retention,
immediate archival). -/
lemma cleanupTick_open_zero (env : Env) (tr : Trade) (hopen : tr.status = .opened)
    (hs : env.posSize = .ok 0) :
    cleanupTick env (some tr)
      = if closedAt (closeTrade env tr) < env.now - 86400 then
          (none, [Effect.cancelPass, Effect.pnlFetch, Effect.closedNotify,
            Effect.archive, Effect.removeTrade])
        else (some (closeTrade env tr),
          [Effect.cancelPass, Effect.pnlFetch, Effect.closedNotify]) := by
  have hcd : closeDetect env tr
      = (closeTrade env tr,
        [Effect.cancelPass, Effect.pnlFetch, Effect.closedNotify]) := by
    unfold closeDetect
    rw [if_pos hopen, hs]
    rfl
  rw [cleanupTick_some_eq, hcd]
  by_cases hage : closedAt (closeTrade env tr) < env.now - 86400
  · rw [if_pos ⟨Or.inl (closeTrade_status env tr), hage⟩, if_pos hage]
    rfl
  · rw [if_neg (fun hcon => hage hcon.2), if_neg hage]

lemma runTicks_cons (e : Env) (rest : List Env) (s : Option Trade) :
    runTicks (e :: rest) s
      = ((runTicks rest (cleanupTick e s).1).1,
        (cleanupTick e s).2 ++ (runTicks rest (cleanupTick e s).1).2) := rfl

lemma runTicks_none (envs : List Env) : runTicks envs none = (none, []) := by
  induction envs with
  | nil => rfl
  | cons e rest ih =>
    have h1 : runTicks (e :: rest) none
        = ((runTicks rest none).1, [] ++ (runTicks rest none).2) := rfl
    rw [h1, ih]
    rfl

/-- Over an already-closed trade, any sequence of sweep ticks emits no
closure effects, archives at most once, archives exactly when the trade is
removed, and otherwise returns the trade unchanged. -/
lemma runTicks_closed (envs : List Env) (tr : Trade) (h : tr.status = .closed) :
    countE .cancelPass (runTicks envs (some tr)).2 = 0 ∧
    countE .pnlFetch (runTicks envs (some tr)).2 = 0 ∧
    countE .closedNotify (runTicks envs (some tr)).2 = 0 ∧
    countE .archive (runTicks envs (some tr)).2 ≤ 1 ∧
    ((runTicks envs (some tr)).1 = none ↔
      countE .archive (runTicks envs (some tr)).2 = 1) ∧
    (∀ tr', (runTicks envs (some tr)).1 = some tr' → tr' = tr) := by
  induction envs with
  | nil =>
    refine ⟨rfl, rfl, rfl, by norm_num [runTicks, countE], ?_, ?_⟩
    · constructor
      · intro hc
        simp [runTicks] at hc
      · intro hc
        simp [runTicks, countE] at hc
    · intro tr' h'
      simp only [runTicks, Option.some.injEq] at h'
      exact h'.symm
  | cons e rest ih =>
    by_cases hage : closedAt tr < e.now - 86400
    · have heff : (runTicks (e :: rest) (some tr)).2
          = [Effect.archive, Effect.removeTrade] := by
        rw [runTicks_cons, cleanupTick_closed e tr h, if_pos hage]
        show [Effect.archive, Effect.removeTrade] ++ (runTicks rest none).2 = _
        rw [runTicks_none]
        rfl
      have hfin : (runTicks (e :: rest) (some tr)).1 = none := by
        rw [runTicks_cons, cleanupTick_closed e tr h, if_pos hage]
        show (runTicks rest none).1 = none
        rw [runTicks_none]
      rw [heff, hfin]
      refine ⟨by decide, by decide, by decide, by decide, by decide, ?_⟩
      intro tr' h'
      exact absurd h' (by simp)
    · have hstep : cleanupTick e (some tr) = (some tr, []) := by
        rw [cleanupTick_closed e tr h, if_neg hage]
      have heq1 : (runTicks (e :: rest) (some tr)).1
          = (runTicks rest (some tr)).1 := by
        rw [runTicks_cons, hstep]
      have heq2 : (runTicks (e :: rest) (some tr)).2
          = (runTicks rest (some tr)).2 := by
        rw [runTicks_cons, hstep]
        rfl
      rw [heq1, heq2]
      exact ih

/-- C8: an open trade observed at zero position size by the sweep performs
the closed transition exactly once — one cancellation pass, one PnL fetch,
one closed notification — over any nonempty run of ticks all observing zero
size; it is archived at most once, archived exactly when removed, and any
surviving record is in `closed` status. -/
theorem cleanup_closed_once (envs : List Env) (tr : Trade)
    (hne : envs ≠ []) (hsz : ∀ e ∈ envs, e.posSize = .ok 0)
    (hopen : tr.status = .opened) :
    countE .cancelPass (runTicks envs (some tr)).2 = 1 ∧
    countE .pnlFetch (runTicks envs (some tr)).2 = 1 ∧
    countE .closedNotify (runTicks envs (some tr)).2 = 1 ∧
    countE .archive (runTicks envs (some tr)).2 ≤ 1 ∧
    ((runTicks envs (some tr)).1 = none ↔
      countE .archive (runTicks envs (some tr)).2 = 1) ∧
    (∀ tr', (runTicks envs (some tr)).1 = some tr' → tr'.status = .closed) := by
  obtain ⟨e, rest, rfl⟩ := List.exists_cons_of_ne_nil hne
  have hs0 : e.posSize = .ok 0 := hsz e (List.mem_cons_self _ _)
  have hct := cleanupTick_open_zero e tr hopen hs0
  by_cases hage : closedAt (closeTrade e tr) < e.now - 86400
  · have heff : (runTicks (e :: rest) (some tr)).2
        = [Effect.cancelPass, Effect.pnlFetch, Effect.closedNotify,
          Effect.archive, Effect.removeTrade] := by
      rw [runTicks_cons, hct, if_pos hage]
      show [Effect.cancelPass, Effect.pnlFetch, Effect.closedNotify,
        Effect.archive, Effect.removeTrade] ++ (runTicks rest none).2 = _
      rw [runTicks_none]
      rfl
    have hfin : (runTicks (e :: rest) (some tr)).1 = none := by
      rw [runTicks_cons, hct, if_pos hage]
      show (runTicks rest none).1 = none
      rw [runTicks_none]
    rw [heff, hfin]
    refine ⟨by decide, by decide, by decide, by decide, by decide, ?_⟩
    intro tr' h'
    exact absurd h' (by simp)
  · have hstep : cleanupTick e (some tr)
        = (some (closeTrade e tr),
          [Effect.cancelPass, Effect.pnlFetch, Effect.closedNotify]) := by
      rw [hct, if_neg hage]
    have heq1 : (runTicks (e :: rest) (some tr)).1
        = (runTicks rest (some (closeTrade e tr))).1 := by
      rw [runTicks_cons, hstep]
    have heq2 : (runTicks (e :: rest) (some tr)).2
        = [Effect.cancelPass, Effect.pnlFetch, Effect.closedNotify]
          ++ (runTicks rest (some (closeTrade e tr))).2 := by
      rw [runTicks_cons, hstep]
    obtain ⟨h1, h2, h3, h4, h5, h6⟩ :=
      runTicks_closed rest (closeTrade e tr) (closeTrade_status e tr)
    rw [heq1, heq2]
    refine ⟨?_, ?_, ?_, ?_, ?_, ?_⟩
    · rw [countE_append, h1]
      decide
    · rw [countE_append, h2]
      decide
    · rw [countE_append, h3]
      decide
    · rw [countE_append]
      have h0 : countE .archive
          [Effect.cancelPass, Effect.pnlFetch, Effect.closedNotify] = 0 := by decide
      rw [h0]
      simpa using h4
    · rw [countE_append]
      have h0 : countE .archive
          [Effect.cancelPass, Effect.pnlFetch, Effect.closedNotify] = 0 := by decide
      rw [h0]
      simpa using h5
    · intro tr' h'
      rw [h6 tr' h']
      exact closeTrade_status e tr

/-- Witness for C8: two sweep ticks at zero size over an open trade; the
cancellation pass runs exactly once. -/
theorem cleanup_closed_once_witness :
    (([⟨100, .ok (0, 0, 0), .ok 0, 0, .error (), .ok 1, none, true, [], .ok 5⟩,
       ⟨200, .ok (0, 0, 0), .ok 0, 0, .error (), .ok 1, none, true, [], .ok 5⟩]
        : List Env) ≠ [] ∧
      (∀ e ∈ ([⟨100, .ok (0, 0, 0), .ok 0, 0, .error (), .ok 1, none, true, [], .ok 5⟩,
        ⟨200, .ok (0, 0, 0), .ok 0, 0, .error (), .ok 1, none, true, [], .ok 5⟩]
          : List Env), e.posSize = .ok 0)) ∧
    countE .cancelPass
      (runTicks
        [⟨100, .ok (0, 0, 0), .ok 0, 0, .error (), .ok 1, none, true, [], .ok 5⟩,
         ⟨200, .ok (0, 0, 0), .ok 0, 0, .error (), .ok 1, none, true, [], .ok 5⟩]
        (some ⟨"T1", "EPICUSDT", .buy, 1, [], none, none, .opened, 10, some 20,
          none, 1, some 1, true, [], none, 0, [], false, false, none, false,
          none⟩)).2 = 1 := by
  refine ⟨⟨by simp, by decide⟩, ?_⟩
  exact (cleanup_closed_once
    [⟨100, .ok (0, 0, 0), .ok 0, 0, .error (), .ok 1, none, true, [], .ok 5⟩,
     ⟨200, .ok (0, 0, 0), .ok 0, 0, .error (), .ok 1, none, true, [], .ok 5⟩]
    ⟨"T1", "EPICUSDT", .buy, 1, [], none, none, .opened, 10, some 20,
      none, 1, some 1, true, [], none, 0, [], false, false, none, false, none⟩
    (by simp) (by decide) rfl).1

/-- Concrete fixture for the C5 counterexample: splits 15/25/25/25, SL 5%. -/
def cexCfg : Config := ⟨5, 3/2, 5, 1/5, [15, 25, 25, 25], true, true, 4, 1, 45⟩

/-- Exchange responses in which everything succeeds except the stop-loss
`set_trading_stop` submission (`slSetOk = false`); the candle fetch raises so
the fixed-percentage fallback stop is used, and no TP submission results have
arrived. -/
def cexEnv : Env := ⟨100, .ok (0, 0, 0), .ok 10, 0, .error (), .ok 1, none, false, [], .ok 0⟩

/-- An open trade awaiting protective orders. -/
def cexTrade : Trade :=
  ⟨"T1", "EPICUSDT", .buy, 100, [101, 102, 103, 104], none, some "o1", .opened,
    10, some 20, none, 10, some 100, false, [], none, 0, [], false, false, none,
    false, none⟩

/-- The same trade after the placement run: SL price recorded, flag set. -/
def cexTrade' : Trade :=
  ⟨"T1", "EPICUSDT", .buy, 100, [101, 102, 103, 104], some 95, some "o1",
    .opened, 10, some 20, none, 10, some 100, true, [], none, 0, [], false,
    false, none, false, none⟩

/-- C5 counterexample: when the stop-loss submission inside
`place_post_entry_orders` fails (the failure is caught in the executor loop),
the run still completes and sets `post_orders_placed`, so the maintenance
sweep does NOT retry placement — the protective stop was not placed, yet the
flag is true and the sweep skips the trade. -/
theorem post_orders_no_retry_on_sl_failure :
    placePostEntryOrders cexCfg cexEnv cexTrade
      = some (cexTrade',
        [Effect.setSl 95 false, Effect.placeTp 0 (3/2) 101,
         Effect.placeTp 1 (5/2) 102, Effect.placeTp 2 (5/2) 103,
         Effect.placeTp 3 (5/2) 104]) ∧
    cexTrade'.postOrdersPlaced = true ∧
    (sweepPostOrders cexCfg cexEnv cexTrade').2.2 = false := by
  refine ⟨?_, rfl, ?_⟩
  · norm_num [placePostEntryOrders, cexCfg, cexEnv, cexTrade, cexTrade',
      findSwingPoint, roundPrice, buildTpOrders, tpLoop, floorToStep, pyOr,
      Trade.mk.injEq]
  · rfl

/-- C5 amended: the sweep retries `place_post_entry_orders` for every open
trade whose `post_orders_placed` flag is false; the flag stays false when the
placement routine raises before completing or observes no position size; but
whenever the routine completes, the flag is set — even if individual SL/TP
submissions inside it failed (they are logged, not retried). -/
theorem post_orders_retry_semantics (cfg : Config) (env : Env) (tr : Trade) :
    (tr.status = .opened → tr.postOrdersPlaced = false →
      (sweepPostOrders cfg env tr).2.2 = true) ∧
    (placePostEntryOrders cfg env tr = none →
      (sweepPostOrders cfg env tr).1 = tr) ∧
    (∀ e r sz, tr.entryPrice = some e → env.rules = .ok r →
      env.posSize = .ok sz → sz ≤ 0 →
      placePostEntryOrders cfg env tr = some (tr, [])) ∧
    (∀ tr' effs, placePostEntryOrders cfg env tr = some (tr', effs) →
      tr' = tr ∨ tr'.postOrdersPlaced = true) := by
  refine ⟨?_, ?_, ?_, ?_⟩
  · intro hop hflag
    unfold sweepPostOrders
    rw [if_pos ⟨hop, hflag⟩]
    cases placePostEntryOrders cfg env tr <;> rfl
  · intro hnone
    unfold sweepPostOrders
    by_cases hc : tr.status = .opened ∧ tr.postOrdersPlaced = false
    · rw [if_pos hc, hnone]
    · rw [if_neg hc]
  · intro e r sz he hr hs hsz
    obtain ⟨q, m, t⟩ := r
    unfold placePostEntryOrders
    rw [he, hr, hs]
    simp [hsz]
  · intro tr' effs h
    unfold placePostEntryOrders at h
    split at h
    · simp at h
    · split at h
      · simp at h
      · split at h
        · simp at h
        · split at h
          · simp only [Option.some.injEq, Prod.mk.injEq] at h
            exact Or.inl h.1.symm
          · simp only [Option.some.injEq, Prod.mk.injEq] at h
            obtain ⟨h1, _⟩ := h
            subst h1
            exact Or.inr rfl

/-- Witness for the amended C5 at a concrete input: the sweep invokes
placement for an open, un-flagged trade, and an aborted placement (candle
rules fetch raising) leaves the trade unchanged. -/
theorem post_orders_retry_semantics_witness :
    (cexTrade.status = .opened ∧ cexTrade.postOrdersPlaced = false ∧
      (sweepPostOrders cexCfg cexEnv cexTrade).2.2 = true) ∧
    (placePostEntryOrders cexCfg
        ⟨100, .error (), .ok 10, 0, .error (), .ok 1, none, true, [], .ok 0⟩
        cexTrade = none ∧
      (sweepPostOrders cexCfg
        ⟨100, .error (), .ok 10, 0, .error (), .ok 1, none, true, [], .ok 0⟩
        cexTrade).1 = cexTrade) := by
  refine ⟨⟨rfl, rfl, ?_⟩, ⟨rfl, ?_⟩⟩
  · exact (post_orders_retry_semantics cexCfg cexEnv cexTrade).1 rfl rfl
  · exact (post_orders_retry_semantics cexCfg
      ⟨100, .error (), .ok 10, 0, .error (), .ok 1, none, true, [], .ok 0⟩
      cexTrade).2.1 rfl

/-- A parsed signal as returned by `parse_signal` (the fields that
`signal_hash` and the handler read). -/
structure Sig where
  base : String
  symbol : String
  side : Side
  trigger : ℚ
  tpPrices : List ℚ
deriving DecidableEq, Repr

/-- The deduplication key space.  `signal_hash` is the md5 hex digest of
`f"{symbol}|{side}|{trigger}|{tp_prices}"`; the handler only ever compares
hashes for equality, so the digest is modelled as an injective encoding of
the quadruple (md5 collisions aside, equal quadruples give equal digests and
the code relies on nothing else). -/
abbrev SigHash := String × Side × ℚ × List ℚ

/-- `signal_parser.signal_hash`. -/
def signalHash (sig : Sig) : SigHash :=
  (sig.symbol, sig.side, sig.trigger, sig.tpPrices)

/-- Python `l[-n:]`. -/
def takeLast {α : Type} (n : Nat) (l : List α) : List α :=
  l.drop (l.length - n)

/-- The deduplication step of `on_telegram_message`:
`seen = set(state["seen_signal_hashes"]); if sh in seen: return;`
`seen.add(sh); state["seen_signal_hashes"] = list(seen)[-500:]`.
The enumeration order of a Python `set` is unspecified (string hashing is
even randomized per process), so `list(seen)` is modelled by an arbitrary
`order` function; the theorems assume only that it permutes its input.
Returns (rejected?, new stored list). -/
def dedupStep {α : Type} [DecidableEq α] (order : List α → List α)
    (seenList : List α) (h : α) : Bool × List α :=
  if h ∈ seenList.dedup then (true, seenList)
  else (false, takeLast 500 (order (seenList.dedup ++ [h])))

/-- The handler-side bot state touched by this path: the dedup window and
the `open_trades` mapping. -/
structure BotState where
  seenSignalHashes : List SigHash
  openTrades : List (String × Trade)
deriving DecidableEq, Repr

/-- Environment of one `on_telegram_message` call: clock, message timestamp,
the guard inputs (exclusion, concurrent/daily/window limits), the result of
`place_entry_order` (`none` covers the too-far skip, an exchange error and a
response without orderId), and the `calc_base_qty` result. -/
structure MsgEnv where
  now : ℚ
  msgTs : ℚ
  maxLagSec : ℚ
  excluded : Bool
  activeCount : Nat
  maxConcurrent : Nat
  dailyCount : Nat
  maxDaily : Nat
  windowCount : Nat
  signalsPerWindow : Nat
  entryOrderId : Option String
  baseQty : ℚ
deriving DecidableEq, Repr

inductive MsgEffect
  | entryAttempt
  | entryPlaced (oid : String)
deriving DecidableEq, Repr

/-- The pending trade record stored by `on_telegram_message` on success. -/
def mkPendingTrade (sig : Sig) (tradeId oid : String) (env : MsgEnv) : Trade :=
  ⟨tradeId, sig.symbol, sig.side, sig.trigger, sig.tpPrices, none, some oid,
    .pending, env.now, none, none, env.baseQty, none, false, [], none, 0, [],
    false, false, none, false, none⟩

/-- `main.on_telegram_message` from the point a signal has parsed: drop old
messages, skip excluded symbols, enforce the concurrent/daily/window limits,
deduplicate (inserting the hash BEFORE placing any order), then place the
entry order and store the pending trade only if an order id came back. -/
def onTelegramMessage (order : List SigHash → List SigHash) (env : MsgEnv)
    (st : BotState) (sig : Sig) (tradeId : String) : BotState × List MsgEffect :=
  if env.maxLagSec < env.now - env.msgTs then (st, [])
  else if env.excluded = true then (st, [])
  else if env.maxConcurrent ≤ env.activeCount then (st, [])
  else if env.maxDaily ≤ env.dailyCount then (st, [])
  else if env.signalsPerWindow ≤ env.windowCount then (st, [])
  else if (dedupStep order st.seenSignalHashes (signalHash sig)).1 = true then
    (st, [])
  else
    match env.entryOrderId with
    | none =>
      ({ st with seenSignalHashes :=
          (dedupStep order st.seenSignalHashes (signalHash sig)).2 },
        [MsgEffect.entryAttempt])
    | some oid =>
      ({ st with
          seenSignalHashes :=
            (dedupStep order st.seenSignalHashes (signalHash sig)).2,
          openTrades := st.openTrades
            ++ [(tradeId, mkPendingTrade sig tradeId oid env)] },
        [MsgEffect.entryAttempt, MsgEffect.entryPlaced oid])

lemma takeLast_length {α : Type} (n : Nat) (l : List α) :
    (takeLast n l).length = min l.length n := by
  simp [takeLast]
  omega

lemma takeLast_subset {α : Type} (n : Nat) (l : List α) {x : α}
    (h : x ∈ takeLast n l) : x ∈ l :=
  List.drop_subset _ l h

lemma takeLast_all {α : Type} (n : Nat) (l : List α) (h : l.length ≤ n) :
    takeLast n l = l := by
  unfold takeLast
  rw [Nat.sub_eq_zero_of_le h]
  rfl

/-- C6 counterexample: store the 500 hashes `0,…,499` oldest-first and add
the distinct hash `500` with a set-enumeration order that is a genuine
permutation (here: reversal).  The new hash is accepted, but the element
evicted by `list(seen)[-500:]` is NOT the oldest one: `0` is still retained
(so the oldest does not "become acceptable again") and the evicted element
is the just-added `500`. -/
theorem dedup_eviction_not_oldest :
    (List.reverse ((List.range 500).dedup ++ [500])).Perm
        ((List.range 500).dedup ++ [500]) ∧
    (dedupStep List.reverse (List.range 500) 500).1 = false ∧
    0 ∈ (dedupStep List.reverse (List.range 500) 500).2 ∧
    500 ∉ (dedupStep List.reverse (List.range 500) 500).2 := by
  have hded : (List.range 500).dedup = List.range 500 :=
    (List.nodup_range 500).dedup
  have hnotmem : (500 : ℕ) ∉ (List.range 500).dedup := by
    rw [hded]
    simp
  have hstep : dedupStep List.reverse (List.range 500) 500
      = (false, takeLast 500 (List.reverse ((List.range 500).dedup ++ [500]))) := by
    unfold dedupStep
    rw [if_neg hnotmem]
  have hrev : List.reverse ((List.range 500).dedup ++ [500])
      = 500 :: List.reverse (List.range 500) := by
    rw [hded]
    simp
  have hlen : (500 :: List.reverse (List.range 500)).length = 501 := by simp
  have htake : takeLast 500 (500 :: List.reverse (List.range 500))
      = List.reverse (List.range 500) := by
    unfold takeLast
    rw [hlen]
    rfl
  refine ⟨List.reverse_perm _, ?_, ?_, ?_⟩
  · rw [hstep]
  · rw [hstep]
    simp only [hrev, htake]
    simp
  · rw [hstep]
    simp only [hrev, htake]
    simp

/-- A signal whose hash is retained in the dedup window is rejected before
any order placement, leaving the state untouched (whatever the guard
inputs). -/
lemma onTelegramMessage_reject (order : List SigHash → List SigHash)
    (env : MsgEnv) (st : BotState) (sig : Sig) (tradeId : String)
    (hmem : signalHash sig ∈ st.seenSignalHashes.dedup) :
    onTelegramMessage order env st sig tradeId = (st, []) := by
  have hd : (dedupStep order st.seenSignalHashes (signalHash sig)).1 = true := by
    unfold dedupStep
    rw [if_pos hmem]
  unfold onTelegramMessage
  by_cases g1 : env.maxLagSec < env.now - env.msgTs
  · rw [if_pos g1]
  · rw [if_neg g1]
    by_cases g2 : env.excluded = true
    · rw [if_pos g2]
    · rw [if_neg g2]
      by_cases g3 : env.maxConcurrent ≤ env.activeCount
      · rw [if_pos g3]
      · rw [if_neg g3]
        by_cases g4 : env.maxDaily ≤ env.dailyCount
        · rw [if_pos g4]
        · rw [if_neg g4]
          by_cases g5 : env.signalsPerWindow ≤ env.windowCount
          · rw [if_pos g5]
          · rw [if_neg g5, if_pos hd]

/-- C6 amended: identical signals hash identically; while its hash is among
the retained hashes a signal is rejected with no state change and no order
attempt; when a new hash is added the store grows to at most 500 entries
drawn from the previous window plus the new hash — one arbitrary element of
the set-enumeration order (not necessarily the oldest) being evicted at the
cap — and any hash not retained is acceptable again. -/
theorem signal_dedup_semantics (order : List SigHash → List SigHash)
    (hord : ∀ l, (order l).Perm l) (env : MsgEnv) (st : BotState) (sig : Sig)
    (tradeId : String) :
    (∀ sig' : Sig, sig'.symbol = sig.symbol → sig'.side = sig.side →
      sig'.trigger = sig.trigger → sig'.tpPrices = sig.tpPrices →
      signalHash sig' = signalHash sig) ∧
    (signalHash sig ∈ st.seenSignalHashes.dedup →
      onTelegramMessage order env st sig tradeId = (st, [])) ∧
    (signalHash sig ∉ st.seenSignalHashes.dedup →
      (dedupStep order st.seenSignalHashes (signalHash sig)).1 = false ∧
      (dedupStep order st.seenSignalHashes (signalHash sig)).2.length
        = min (st.seenSignalHashes.dedup.length + 1) 500 ∧
      (∀ x ∈ (dedupStep order st.seenSignalHashes (signalHash sig)).2,
        x = signalHash sig ∨ x ∈ st.seenSignalHashes)) ∧
    (∀ g : SigHash, ∀ l : List SigHash, g ∉ l.dedup →
      (dedupStep order l g).1 = false) := by
  refine ⟨?_, ?_, ?_, ?_⟩
  · intro sig' h1 h2 h3 h4
    unfold signalHash
    rw [h1, h2, h3, h4]
  · exact onTelegramMessage_reject order env st sig tradeId
  · intro hnot
    have hstep : dedupStep order st.seenSignalHashes (signalHash sig)
        = (false, takeLast 500
            (order (st.seenSignalHashes.dedup ++ [signalHash sig]))) := by
      unfold dedupStep
      rw [if_neg hnot]
    refine ⟨by rw [hstep], ?_, ?_⟩
    · rw [hstep]
      simp only
      rw [takeLast_length]
      rw [List.Perm.length_eq (hord (st.seenSignalHashes.dedup ++ [signalHash sig]))]
      simp [Nat.add_comm]
    · intro x hx
      rw [hstep] at hx
      simp only at hx
      have hx2 := takeLast_subset _ _ hx
      have hx3 := (hord (st.seenSignalHashes.dedup ++ [signalHash sig])).mem_iff.mp hx2
      rcases List.mem_append.mp hx3 with h | h
      · exact Or.inr (List.mem_dedup.mp h)
      · simp at h
        exact Or.inl h
  · intro g l hg
    unfold dedupStep
    rw [if_neg hg]

/-- Witness for the amended C6 at a concrete input: a retained duplicate is
rejected without touching the state. -/
theorem signal_dedup_semantics_witness :
    (("EPICUSDT", Side.sell, (59 : ℚ)/100, [(58 : ℚ)/100])
        ∈ ([(("EPICUSDT", Side.sell, (59 : ℚ)/100, [(58 : ℚ)/100]))]
          : List SigHash).dedup) ∧
    onTelegramMessage id
        ⟨100, 100, 45, false, 0, 3, 0, 10, 0, 2, none, 1⟩
        ⟨[("EPICUSDT", Side.sell, (59 : ℚ)/100, [(58 : ℚ)/100])], []⟩
        ⟨"EPIC", "EPICUSDT", Side.sell, 59/100, [58/100]⟩
        "T1"
      = (⟨[("EPICUSDT", Side.sell, (59 : ℚ)/100, [(58 : ℚ)/100])], []⟩, []) := by
  have hmem : (("EPICUSDT", Side.sell, (59 : ℚ)/100, [(58 : ℚ)/100]))
      ∈ ([(("EPICUSDT", Side.sell, (59 : ℚ)/100, [(58 : ℚ)/100]))]
        : List SigHash).dedup := by
    simp
  refine ⟨hmem, ?_⟩
  exact (signal_dedup_semantics id (fun l => List.Perm.refl l)
    ⟨100, 100, 45, false, 0, 3, 0, 10, 0, 2, none, 1⟩
    ⟨[("EPICUSDT", Side.sell, (59 : ℚ)/100, [(58 : ℚ)/100])], []⟩
    ⟨"EPIC", "EPICUSDT", Side.sell, 59/100, [58/100]⟩
    "T1").2.1 hmem

/-- C10: when the entry order placement returns no order id (too-far skip,
exchange error, or missing orderId), the signal's hash has already been
stored and is not removed: the handler returns with no trade record created
(only the order attempt happened), the hash is in the retained window, and
an identical signal re-delivered later — under any guard inputs — is
rejected as a duplicate. -/
theorem hash_kept_on_failed_entry (order : List SigHash → List SigHash)
    (hord : ∀ l, (order l).Perm l) (env : MsgEnv) (st : BotState) (sig : Sig)
    (tradeId : String)
    (g1 : ¬ env.maxLagSec < env.now - env.msgTs)
    (g2 : ¬ env.excluded = true)
    (g3 : ¬ env.maxConcurrent ≤ env.activeCount)
    (g4 : ¬ env.maxDaily ≤ env.dailyCount)
    (g5 : ¬ env.signalsPerWindow ≤ env.windowCount)
    (hnew : signalHash sig ∉ st.seenSignalHashes.dedup)
    (hroom : st.seenSignalHashes.dedup.length + 1 ≤ 500)
    (hfail : env.entryOrderId = none) :
    (onTelegramMessage order env st sig tradeId).2 = [MsgEffect.entryAttempt] ∧
    ((onTelegramMessage order env st sig tradeId).1).openTrades = st.openTrades ∧
    signalHash sig ∈ ((onTelegramMessage order env st sig tradeId).1).seenSignalHashes ∧
    (∀ env2 tradeId2,
      onTelegramMessage order env2 ((onTelegramMessage order env st sig tradeId).1)
          sig tradeId2
        = ((onTelegramMessage order env st sig tradeId).1, [])) := by
  have hd : ¬ (dedupStep order st.seenSignalHashes (signalHash sig)).1 = true := by
    unfold dedupStep
    rw [if_neg hnew]
    simp
  have hres : onTelegramMessage order env st sig tradeId
      = ({ st with seenSignalHashes :=
          (dedupStep order st.seenSignalHashes (signalHash sig)).2 },
        [MsgEffect.entryAttempt]) := by
    unfold onTelegramMessage
    rw [if_neg g1, if_neg g2, if_neg g3, if_neg g4, if_neg g5, if_neg hd, hfail]
  have hlenall : (order (st.seenSignalHashes.dedup ++ [signalHash sig])).length ≤ 500 := by
    rw [List.Perm.length_eq (hord (st.seenSignalHashes.dedup ++ [signalHash sig]))]
    simpa using hroom
  have hmemnew : signalHash sig ∈ (dedupStep order st.seenSignalHashes (signalHash sig)).2 := by
    unfold dedupStep
    rw [if_neg hnew]
    simp only
    rw [takeLast_all 500 _ hlenall]
    exact (hord (st.seenSignalHashes.dedup ++ [signalHash sig])).mem_iff.mpr (by simp)
  refine ⟨by rw [hres], by rw [hres], ?_, ?_⟩
  · rw [hres]
    exact hmemnew
  · intro env2 tradeId2
    apply onTelegramMessage_reject
    rw [hres]
    exact List.mem_dedup.mpr hmemnew

/-- Witness for C10 at a concrete input: the entry placement returns no
order id, the hash stays stored, no trade is recorded, and the identical
signal is rejected on re-delivery. -/
theorem hash_kept_on_failed_entry_witness :
    ((¬ (45 : ℚ) < 100 - 100) ∧
      (([] : List SigHash).dedup.length + 1 ≤ 500)) ∧
    ((onTelegramMessage id ⟨100, 100, 45, false, 0, 3, 0, 10, 0, 2, none, 1⟩
        ⟨[], []⟩ ⟨"EPIC", "EPICUSDT", Side.sell, 59/100, [58/100]⟩ "T1").1).openTrades
      = ([] : List (String × Trade)) ∧
    signalHash ⟨"EPIC", "EPICUSDT", Side.sell, 59/100, [58/100]⟩
      ∈ ((onTelegramMessage id ⟨100, 100, 45, false, 0, 3, 0, 10, 0, 2, none, 1⟩
        ⟨[], []⟩ ⟨"EPIC", "EPICUSDT", Side.sell, 59/100, [58/100]⟩ "T1").1).seenSignalHashes := by
  have h := hash_kept_on_failed_entry id (fun l => List.Perm.refl l)
    ⟨100, 100, 45, false, 0, 3, 0, 10, 0, 2, none, 1⟩
    ⟨[], []⟩ ⟨"EPIC", "EPICUSDT", Side.sell, 59/100, [58/100]⟩ "T1"
    (by norm_num) (by simp) (by simp) (by simp) (by simp)
    (by simp [signalHash]) (by simp) rfl
  exact ⟨⟨by norm_num, by simp⟩, h.2.1, h.2.2.1⟩

/-- Witness for C7 at a concrete input: trailing started and realized PnL
5 > 0, so the first rule fires. -/
theorem exit_reason_first_match_witness :
    ((⟨"T1", "E", .buy, 1, [2], none, none, .closed, 10, some 20, some 30, 1,
        some 1, true, [], none, 1, [1], false, true, some 5, true, none⟩
      : Trade).trailingStarted = true ∧
      (∃ p, (some (5 : ℚ)) = some p ∧ 0 < p)) ∧
    determineExitReason
        ⟨"T1", "E", .buy, 1, [2], none, none, .closed, 10, some 20, some 30, 1,
          some 1, true, [], none, 1, [1], false, true, some 5, true, none⟩
      = "trailing_stop" := by
  refine ⟨⟨rfl, ⟨5, rfl, by norm_num⟩⟩, ?_⟩
  exact (exit_reason_first_match
    ⟨"T1", "E", .buy, 1, [2], none, none, .closed, 10, some 20, some 30, 1,
      some 1, true, [], none, 1, [1], false, true, some 5, true, none⟩).1
    rfl ⟨5, rfl, by norm_num⟩

end SysFox
